import Mathlib

/-!
# Chameleon: evaluation core

A shallow embedding of `src/evaluate.cpp` (`Eval::evaluate`, `Eval::init`,
`eval_init`),
`src/material.cpp` (`imbalance`, `Material::probe`) and `src/psqt.cpp`
(`PSQT::init`) of the Chameleon Xiangqi engine, and of the class `Bitboard`
that `src/bitboard.h` declares, with the properties of its specification that
concern them.

Conventions of the embedding

* C++ `int` / `Value` arithmetic is carried out in `Int`; C++ division is the
  truncating `Int.tdiv`.  Narrowing conversions that the source writes out
  (`int16_t(..)`, `(uint8_t)..`) are explicit wrap-arounds.  Signed `int`
  overflow is undefined in C++ and is not given a meaning here: the products
  of `Eval::evaluate` are a score component times `PHASE_MIDGAME`, and
  `imbalanceChecked` repeats `imbalance` with every operation checked against
  the range of a 32-bit `int`.
* `types.h`, `evaluate.h`, `material.h`, `misc.h`, `position.h`, `thread.h`
  and `endgame.h` are not part of the sources at hand.  The constants the
  code takes from them are fields of `Consts`; the collaborators `Position`
  and `Thread` are records of the answers to the queries that the code makes.
* A pointer is `Option` (`none` is `nullptr`); an `Entry*` into the material
  table is the index of its slot.
* The global tables `psq`, `PieceValue` and `KingDanger` are the fields of
  `Globals`; a table is a function of its indices and a loop is a fold over
  the list of the values of its counter.
* The member functions of `Bitboard` are defined in a file that is not at
  hand; they are modelled from the specification.
-/

namespace Chameleon

/-! ## Types taken from the missing headers -/

/-- Colours, in the order of the array index `COLOR_NB` uses. -/
inductive Color where
  | WHITE
  | BLACK
deriving DecidableEq, Repr

/-- Piece types in the order used by `Linear`, `PieceCount` and `PSQT::Bonus`:
the synthetic slot 0, then pawn, advisor, bishop, knight, cannon, rook, king. -/
inductive PieceType where
  | NO_PIECE_TYPE
  | PAWN
  | ADVISOR
  | BISHOP
  | KNIGHT
  | CANNON
  | ROOK
  | KING
deriving DecidableEq, Repr

/-- Modelled from the spec: `Score` of the missing `types.h`, "a packed pair
(middlegame value, endgame value), combined additively", the two game-phase
components independent of each other. -/
structure Score where
  mg : Int
  eg : Int
deriving DecidableEq, Repr

/-- Modelled from the spec: `make_score` of the missing `types.h` packs the
middlegame and the endgame value into a `Score`. -/
def make_score (mg eg : Int) : Score := ⟨mg, eg⟩

/-- Modelled from the spec: `mg_value` of the missing `types.h`, the
middlegame component of a `Score`. -/
def mg_value (s : Score) : Int := s.mg

/-- Modelled from the spec: `eg_value` of the missing `types.h`, the endgame
component of a `Score`. -/
def eg_value (s : Score) : Int := s.eg

/-- Modelled from the spec: `SCORE_ZERO` of the missing `types.h`. -/
def SCORE_ZERO : Score := make_score 0 0

/-- Modelled from the spec: scores are "combined additively", component by
component. -/
instance : Add Score := ⟨fun a b => make_score (a.mg + b.mg) (a.eg + b.eg)⟩

/-- Modelled from the spec: the negation of a score negates both components. -/
instance : Neg Score := ⟨fun a => make_score (-a.mg) (-a.eg)⟩

/-- The constants that the code reads from the missing headers `types.h` and
`evaluate.h`. -/
structure Consts where
  /-- `PHASE_MIDGAME` -/
  PHASE_MIDGAME : Int
  /-- `SCALE_FACTOR_NORMAL` -/
  SCALE_FACTOR_NORMAL : Int
  /-- `SCALE_FACTOR_NONE` -/
  SCALE_FACTOR_NONE : Int
  /-- `Eval::Tempo` -/
  Tempo : Int

/-- The divisors of `Eval::evaluate` are positive and `SCALE_FACTOR_NORMAL`
fits the `uint8_t` it is stored in. -/
def Consts.Valid (K : Consts) : Prop :=
  0 < K.PHASE_MIDGAME ∧ 0 < K.SCALE_FACTOR_NORMAL ∧ K.SCALE_FACTOR_NORMAL < 256

instance (K : Consts) : Decidable K.Valid := by
  unfold Consts.Valid
  exact inferInstance

/-- The values these constants have in the Stockfish sources the engine is
derived from; used for concrete evaluations. -/
def stockfishConsts : Consts where
  PHASE_MIDGAME := 128
  SCALE_FACTOR_NORMAL := 64
  SCALE_FACTOR_NONE := 255
  Tempo := 20

/-- An array indexed by `Color` (`T x[COLOR_NB]`). -/
structure PerColor (α : Type) where
  white : α
  black : α
deriving DecidableEq, Repr

/-- The read `x[c]`. -/
def PerColor.get {α : Type} (p : PerColor α) : Color → α
  | Color.WHITE => p.white
  | Color.BLACK => p.black

/-- The write `x[c] = a`. -/
def PerColor.set {α : Type} (p : PerColor α) (c : Color) (a : α) : PerColor α :=
  match c with
  | Color.WHITE => { p with white := a }
  | Color.BLACK => { p with black := a }

/-- An `EndgameBase<T>` object of the endgame registry: its identity and the
answer of `strong_side()`. -/
structure EndgameBase where
  id : Nat
  strongSide : Color
deriving DecidableEq, Repr

/-- The call `sf->strong_side()`. -/
def EndgameBase.strong_side (sf : EndgameBase) : Color := sf.strongSide

/-- A `Material::Entry` with the fields `Material::probe` writes. -/
structure Entry where
  /-- `Key key` (64 bit unsigned) -/
  key : Nat
  /-- `int16_t value` -/
  value : Int
  /-- `uint8_t factor[COLOR_NB]` -/
  factor : PerColor Int
  /-- `EndgameBase<Value>* evaluationFunction` -/
  evaluationFunction : Option EndgameBase
  /-- `EndgameBase<ScaleFactor>* scalingFunction[COLOR_NB]` -/
  scalingFunction : PerColor (Option EndgameBase)
  /-- `Phase gamePhase` -/
  gamePhase : Int
deriving DecidableEq, Repr

/-- The entry after `std::memset(e, 0, sizeof(Entry))`; also the content of
every slot of a freshly created table. -/
def Entry.zero : Entry where
  key := 0
  value := 0
  factor := ⟨0, 0⟩
  evaluationFunction := none
  scalingFunction := ⟨none, none⟩
  gamePhase := 0

/-- The registry `Thread::endgames`: the answers of `probe<Value>(key)` and
`probe<ScaleFactor>(key)`. -/
structure Endgames where
  probeValue : Nat → Option EndgameBase
  probeScaleFactor : Nat → Option EndgameBase

/-- The part of a search thread `Material::probe` works on. -/
structure Thread where
  /-- The slot `materialTable[key]` selects (`HashTable::operator[]`). -/
  slot : Nat → Nat
  /-- The slots of `materialTable`. -/
  materialTable : Nat → Entry
  /-- The endgame registry. -/
  endgames : Endgames

/-! ## `src/bitboard.h` -/

/-- Modelled from the spec: the class `Bitboard`, whose member functions are
declared in `bitboard.h` and defined in a file that is not at hand.  "A 90-bit
set of board squares, stored as two unsigned 64-bit words (low word covers
squares 0-63, high word the remainder, masked to the valid 90-bit range)";
the fields are the words `bb[0]` and `bb[1]`. -/
structure Bitboard where
  bb0 : Nat
  bb1 : Nat
deriving DecidableEq, Repr

/-- Modelled from the spec: the all-ones 64-bit word. -/
def WORD_MASK : Nat := 2 ^ 64 - 1

/-- Modelled from the spec: `Bitboard::BIT_MASK`, the "constant bit mask" that
keeps the high word within the valid 90-bit range: its low 26 bits. -/
def BIT_MASK : Nat := 2 ^ 26 - 1

/-- Modelled from the spec: the "zero/empty default" constructor `Bitboard()`. -/
def Bitboard.empty : Bitboard := ⟨0, 0⟩

/-- Modelled from the spec: the full 90-square universe. -/
def Bitboard.universe : Bitboard := ⟨WORD_MASK, BIT_MASK⟩

/-- The bits above square 89 are zero (and the low word is a 64-bit word). -/
def Bitboard.Masked (a : Bitboard) : Prop := a.bb0 < 2 ^ 64 ∧ a.bb1 < 2 ^ 26

instance (a : Bitboard) : Decidable a.Masked := by
  unfold Bitboard.Masked
  exact inferInstance

/-- Modelled from the spec: `operator bool`, "boolean truthiness (any bit set)". -/
def Bitboard.toBool (a : Bitboard) : Bool := a.bb0 != 0 || a.bb1 != 0

/-- Modelled from the spec: `operator &`, word by word. -/
def Bitboard.and (a b : Bitboard) : Bitboard := ⟨a.bb0 &&& b.bb0, a.bb1 &&& b.bb1⟩

/-- Modelled from the spec: `operator |`, word by word. -/
def Bitboard.or (a b : Bitboard) : Bitboard := ⟨a.bb0 ||| b.bb0, a.bb1 ||| b.bb1⟩

/-- Modelled from the spec: `operator ~`, the complement of both 64-bit words
with the "constant mask applied after every shift/complement to zero out the
unused high bits". -/
def Bitboard.not (a : Bitboard) : Bitboard :=
  ⟨a.bb0 ^^^ WORD_MASK, (a.bb1 ^^^ WORD_MASK) &&& BIT_MASK⟩

/-- Is the square `i` in the set: bit `i` of the low word for the squares
0..63, bit `i - 64` of the high word for the others. -/
def Bitboard.test (a : Bitboard) (i : Nat) : Bool :=
  if i < 64 then a.bb0.testBit i else a.bb1.testBit (i - 64)

/-- The squares of the set in increasing order of their index (both 64-bit
words are scanned). -/
def Bitboard.squares (a : Bitboard) : List Nat :=
  (List.range 128).filter a.test

/-- Modelled from the spec: `popcount`, the number of set bits. -/
def Bitboard.popcount (a : Bitboard) : Nat := a.squares.length

/-- The index of the lowest set bit of a 64-bit word, if there is one. -/
def lowestBit (w : Nat) : Option Nat := (List.range 64).find? (fun i => w.testBit i)

/-- Modelled from the spec: `pop_lsb` "finds the lowest-indexed set bit across
both words (checking the low word first) and clears it in place". -/
def Bitboard.pop_lsb (a : Bitboard) : Bitboard :=
  match lowestBit a.bb0 with
  | some i => { a with bb0 := a.bb0 ^^^ 2 ^ i }
  | none =>
    match lowestBit a.bb1 with
    | some i => { a with bb1 := a.bb1 ^^^ 2 ^ i }
    | none => a

/-- The answers of a `Position` to the queries of the evaluation core. -/
structure Position where
  /-- `psq_score()` -/
  psq_score : Score
  /-- `side_to_move()` -/
  side_to_move : Color
  /-- `checkers()` converted to `bool`: is the side to move in check -/
  checkers : Bool
  /-- `game_phase()` -/
  game_phase : Int
  /-- `material_key()` -/
  material_key : Nat
  /-- `count<Pt>(c)` -/
  count : PieceType → Color → Nat
  /-- `this_thread()` -/
  this_thread : Thread
  /-- `non_pawn_material(c)` -/
  non_pawn_material : Color → Int := fun _ => 0
  /-- `pinned_pieces(c)` -/
  pinned_pieces : Color → Bitboard := fun _ => Bitboard.empty
  /-- `attacks_from<KING>(square<KING>(c))`: the squares the king of `c` attacks -/
  king_attacks : Color → Bitboard := fun _ => Bitboard.empty

/-! ## `src/evaluate.cpp` -/

/-- Lines 286-292 of `Eval::evaluate`: the value from White's point of view
computed from the running score, before orientation and tempo. -/
def whiteValue (K : Consts) (score : Score) : Int :=
  let sf := K.SCALE_FACTOR_NONE
  let v := mg_value score * K.PHASE_MIDGAME
    + (eg_value score * (K.PHASE_MIDGAME - K.PHASE_MIDGAME) * sf).tdiv K.SCALE_FACTOR_NORMAL
  v.tdiv K.PHASE_MIDGAME

/-- `Eval::evaluate`.  The failed `assert(!pos.checkers())` is `none`. -/
def evaluate (K : Consts) (pos : Position) : Option Int :=
  if pos.checkers then none
  else
    let score := pos.psq_score
    let v := whiteValue K score
    some ((if pos.side_to_move = Color.WHITE then v else -v) + K.Tempo)

/-! ## `src/material.cpp` -/

/-- The index of a piece type in the arrays dimensioned `PIECE_TYPE_NB`. -/
def PieceType.idx : PieceType → Nat
  | NO_PIECE_TYPE => 0
  | PAWN => 1
  | ADVISOR => 2
  | BISHOP => 3
  | KNIGHT => 4
  | CANNON => 5
  | ROOK => 6
  | KING => 7

/-- `Linear[7]`: pair, pawn, advisor, bishop, knight, cannon, rook. -/
def Linear : List Int := [1667, -168, -168, -166, -1027, -138, 238]

/-- `QuadraticOurs[][PIECE_TYPE_NB]`; the initialisers a row leaves out are
zero, which is the default of the read `tableAt`. -/
def QuadraticOurs : List (List Int) :=
  [ [1667],
    [40, 2],
    [],
    [0, 104, 4, 0],
    [32, 255, -3],
    [-26, -2, 47, 105, -149],
    [-185, 24, 122, 137, -134, 0] ]

/-- `QuadraticTheirs[][PIECE_TYPE_NB]`. -/
def QuadraticTheirs : List (List Int) :=
  [ [0],
    [36, 0],
    [],
    [59, 65, 42, 0],
    [9, 63, 0],
    [46, 39, 24, -24, 0],
    [101, 100, -37, 141, 268, 0] ]

/-- The read `t[i][j]` of a table whose missing initialisers are zero. -/
def tableAt (t : List (List Int)) (i j : Nat) : Int := (t.getD i []).getD j 0

/-- The opposite colour, `Them = (Us == WHITE ? BLACK : WHITE)`. -/
def Color.them (Us : Color) : Color :=
  if Us = Color.WHITE then Color.BLACK else Color.WHITE

/-- The inner loop of `imbalance`, `for (pt2 = NO_PIECE_TYPE; pt2 <= pt1; ++pt2)`,
started from `v = Linear[pt1]`. -/
def imbalanceInner (Us : Color) (pieceCount : Color → List Int) (pt1 : Nat) : Int :=
  (List.range (pt1 + 1)).foldl
    (fun v pt2 =>
      v + (tableAt QuadraticOurs pt1 pt2 * (pieceCount Us).getD pt2 0
            + tableAt QuadraticTheirs pt1 pt2 * (pieceCount Us.them).getD pt2 0))
    (Linear.getD pt1 0)

/-- The function template `imbalance<Us>`: the outer loop runs `pt1` from
`NO_PIECE_TYPE` (0) to `ROOK` (6) and skips the piece types `Us` has none of. -/
def imbalance (Us : Color) (pieceCount : Color → List Int) : Int :=
  (List.range (PieceType.ROOK.idx + 1)).foldl
    (fun bonus pt1 =>
      if (pieceCount Us).getD pt1 0 = 0 then bonus
      else bonus + (pieceCount Us).getD pt1 0 * imbalanceInner Us pieceCount pt1)
    0

/-- The conversion `int16_t(x)`: reduction modulo 2^16 into -32768..32767. -/
def toInt16 (x : Int) : Int := (x + 32768) % 65536 - 32768

/-- The conversion `(uint8_t)x`: reduction modulo 2^8. -/
def toUInt8 (x : Int) : Int := x % 256

/-- One row of the local array `PieceCount` of `Material::probe`:
bishop-pair flag (a `bool` converted to `int`), pawns, advisors, bishops,
knights, cannons, rooks. -/
def pieceCountRow (pos : Position) (c : Color) : List Int :=
  [ if pos.count PieceType.BISHOP c > 1 then 1 else 0,
    pos.count PieceType.PAWN c,
    pos.count PieceType.ADVISOR c,
    pos.count PieceType.BISHOP c,
    pos.count PieceType.KNIGHT c,
    pos.count PieceType.CANNON c,
    pos.count PieceType.ROOK c ]

/-- The local array `PieceCount[COLOR_NB][PIECE_TYPE_NB]` of `Material::probe`. -/
def PieceCount (pos : Position) : Color → List Int := pieceCountRow pos

/-- The quotient `(imbalance<WHITE>(pc) - imbalance<BLACK>(pc)) / 16` in `int`. -/
def imbalanceQuot (pieceCount : Color → List Int) : Int :=
  (imbalance Color.WHITE pieceCount - imbalance Color.BLACK pieceCount).tdiv 16

/-- The entry `Material::probe` builds in the slot on a miss (lines 106-138). -/
def computeEntry (K : Consts) (pos : Position) : Entry :=
  let key := pos.material_key
  let e : Entry :=
    { Entry.zero with
      key := key
      factor := ⟨toUInt8 K.SCALE_FACTOR_NORMAL, toUInt8 K.SCALE_FACTOR_NORMAL⟩
      gamePhase := pos.game_phase }
  match pos.this_thread.endgames.probeValue key with
  | some f => { e with evaluationFunction := some f }
  | none =>
    match pos.this_thread.endgames.probeScaleFactor key with
    | some sf => { e with scalingFunction := e.scalingFunction.set sf.strong_side (some sf) }
    | none => { e with value := toInt16 (imbalanceQuot (PieceCount pos)) }

/-- `Material::probe`: the thread after the call and the slot the returned
pointer refers to.  On a hit nothing is written. -/
def probe (K : Consts) (pos : Position) : Thread × Nat :=
  let key := pos.material_key
  let th := pos.this_thread
  let i := th.slot key
  if (th.materialTable i).key = key then (th, i)
  else ({ th with materialTable := Function.update th.materialTable i (computeEntry K pos) }, i)

/-- The entry the pointer returned by `Material::probe` refers to. -/
def probeEntry (K : Consts) (pos : Position) : Entry :=
  (probe K pos).1.materialTable (probe K pos).2

/-- The position as the next call sees it: the same answers, the thread in the
state the previous call left it in. -/
def Position.onThread (pos : Position) (th : Thread) : Position :=
  { pos with this_thread := th }

/-! ### `imbalance` with every `int` operation checked -/

/-- The value is representable in a 32-bit `int`. -/
def fitsInt32 (x : Int) : Prop := -2147483648 ≤ x ∧ x ≤ 2147483647

instance (x : Int) : Decidable (fitsInt32 x) := by
  unfold fitsInt32
  exact inferInstance

/-- The result of an `int` operation whose mathematical value is `x`: `x` when
it is representable, `none` when the operation overflows. -/
def int32 (x : Int) : Option Int := if fitsInt32 x then some x else none

/-- A loop over a list whose body may overflow: the first overflow ends it. -/
def foldlChecked {α : Type} (f : Int → α → Option Int) : Int → List α → Option Int
  | v, [] => some v
  | v, a :: L => (f v a).bind (fun v1 => foldlChecked f v1 L)

/-- The body of the inner loop of `imbalance`, operation by operation: the two
products, their sum, and the addition to `v`. -/
def imbalanceInnerStepChecked (Us : Color) (pieceCount : Color → List Int) (pt1 : Nat)
    (v : Int) (pt2 : Nat) : Option Int :=
  (int32 (tableAt QuadraticOurs pt1 pt2 * (pieceCount Us).getD pt2 0)).bind (fun m1 =>
    (int32 (tableAt QuadraticTheirs pt1 pt2 * (pieceCount Us.them).getD pt2 0)).bind (fun m2 =>
      (int32 (m1 + m2)).bind (fun sum => int32 (v + sum))))

/-- The inner loop of `imbalance` with every operation checked. -/
def imbalanceInnerChecked (Us : Color) (pieceCount : Color → List Int) (pt1 : Nat) :
    Option Int :=
  foldlChecked (imbalanceInnerStepChecked Us pieceCount pt1) (Linear.getD pt1 0)
    (List.range (pt1 + 1))

/-- The body of the outer loop of `imbalance`, operation by operation: the
inner loop, the product with the count, and the addition to `bonus`. -/
def imbalanceStepChecked (Us : Color) (pieceCount : Color → List Int) (bonus : Int)
    (pt1 : Nat) : Option Int :=
  if (pieceCount Us).getD pt1 0 = 0 then some bonus
  else
    (imbalanceInnerChecked Us pieceCount pt1).bind (fun v =>
      (int32 ((pieceCount Us).getD pt1 0 * v)).bind (fun m => int32 (bonus + m)))

/-- `imbalance<Us>` with every operation checked. -/
def imbalanceChecked (Us : Color) (pieceCount : Color → List Int) : Option Int :=
  foldlChecked (imbalanceStepChecked Us pieceCount) 0 (List.range (PieceType.ROOK.idx + 1))

/-- `(imbalance<WHITE>(pc) - imbalance<BLACK>(pc)) / 16` with every operation
checked. -/
def imbalanceQuotChecked (pieceCount : Color → List Int) : Option Int :=
  (imbalanceChecked Color.WHITE pieceCount).bind (fun w =>
    (imbalanceChecked Color.BLACK pieceCount).bind (fun b =>
      (int32 (w - b)).bind (fun d => int32 (d.tdiv 16))))

/-! ## `src/psqt.cpp` -/

/-- Game phases, the first index of `PieceValue[PHASE_NB][PIECE_NB]`. -/
inductive Phase where
  | MG
  | EG
deriving DecidableEq, Repr

/-- What `PSQT::init` takes from the missing `types.h`: the file and the rank
of a square, the square operator `~` and the code `make_piece(c, pt)` of a
piece.  Squares are numbered from `SQ_A0` (0) to `SQ_I9` (89). -/
structure Board where
  /-- `file_of(s)` -/
  file_of : Nat → Nat
  /-- `rank_of(s)` -/
  rank_of : Nat → Nat
  /-- `~s` -/
  mirror : Nat → Nat
  /-- `make_piece(c, pt)` -/
  make_piece : Color → Nat → Nat

/-- `FILE_E`, the middle one of the nine files A..I numbered from 0. -/
def FILE_E : Nat := 4

/-- `FILE_I`, the last of the nine files. -/
def FILE_I : Nat := 8

/-- `RANK_NB`, the number of ranks 0..9. -/
def RANK_NB : Nat := 10

/-- `FILE_NB`, the number of files A..I. -/
def FILE_NB : Nat := 9

/-- The number of squares of the board, `SQ_I9 + 1`. -/
def SQUARE_COUNT : Nat := 90

/-- The template of one piece type in `PSQT::Bonus`: ten ranks of five
entries, every one of them `S(0,0)` in the source. -/
def zeroTemplate : List (List Score) :=
  List.replicate 10 (List.replicate 5 (make_score 0 0))

/-- `PSQT::Bonus[][RANK_NB][(FILE_NB + 1) / 2]`: an empty first row, then the
templates of pawn, advisor, bishop, knight, cannon, rook and king. -/
def Bonus : List (List (List Score)) :=
  [ [], zeroTemplate, zeroTemplate, zeroTemplate, zeroTemplate, zeroTemplate, zeroTemplate,
    zeroTemplate ]

/-- The read `Bonus[pt][r][e]`; what the initialisers leave out is zero. -/
def bonusAt (pt r e : Nat) : Score :=
  ((Bonus.getD pt []).getD r []).getD e SCORE_ZERO

/-- The read `Bonus[pt][r][e]` when the three indices lie inside the rows the
initialisers of `Bonus` write out, `none` otherwise. -/
def bonusAtChecked (pt r e : Nat) : Option Score :=
  (Bonus[pt]?).bind (fun t => (t[r]?).bind (fun row => row[e]?))

/-- The local `edgeDistance` of `PSQT::init`:
`file_of(s) <= FILE_E ? file_of(s) : FILE_I - file_of(s)`, in `int`. -/
def edgeDistance (B : Board) (s : Nat) : Int :=
  if B.file_of s ≤ FILE_E then (B.file_of s : Int) else (FILE_I : Int) - (B.file_of s : Int)

/-- The global tables the two `init` functions work on. -/
structure Globals where
  /-- `PSQT::psq[COLOR_NB][PIECE_TYPE_NB][SQUARE_NB]` -/
  psq : Color → Nat → Nat → Score
  /-- `PieceValue[PHASE_NB][PIECE_NB]` -/
  PieceValue : Phase → Nat → Int
  /-- `KingDanger[512]` -/
  KingDanger : Nat → Score

/-- The write `psq[c][pt][s] = v`. -/
def setPsq (psq : Color → Nat → Nat → Score) (c : Color) (pt s : Nat) (v : Score) :
    Color → Nat → Nat → Score :=
  fun c1 pt1 s1 => if c1 = c ∧ pt1 = pt ∧ s1 = s then v else psq c1 pt1 s1

/-- The write `PieceValue[ph][i] = v`. -/
def setPieceValue (pv : Phase → Nat → Int) (ph : Phase) (i : Nat) (v : Int) :
    Phase → Nat → Int :=
  fun ph1 i1 => if ph1 = ph ∧ i1 = i then v else pv ph1 i1

/-- The value `v + Bonus[pt][rank_of(s)][edgeDistance]` that the inner loop of
`PSQT::init` stores in `psq[WHITE][pt][s]`. -/
def PSQT.whiteEntry (B : Board) (v : Score) (pt s : Nat) : Score :=
  v + bonusAt pt (B.rank_of s) (edgeDistance B s).toNat

/-- The body of the inner loop of `PSQT::init` for the square `s`:
`psq[BLACK][pt][~s] = -(psq[WHITE][pt][s] = v + Bonus[pt][rank_of(s)][edgeDistance])`. -/
def PSQT.initSquare (B : Board) (v : Score) (pt : Nat) (psq : Color → Nat → Nat → Score)
    (s : Nat) : Color → Nat → Nat → Score :=
  let w := PSQT.whiteEntry B v pt s
  setPsq (setPsq psq Color.WHITE pt s w) Color.BLACK pt (B.mirror s) (-w)

/-- The body of the outer loop of `PSQT::init` for the piece type `pt`. -/
def PSQT.initPiece (B : Board) (g : Globals) (pt : Nat) : Globals :=
  let pv1 := setPieceValue g.PieceValue Phase.MG (B.make_piece Color.BLACK pt)
    (g.PieceValue Phase.MG pt)
  let pv2 := setPieceValue pv1 Phase.EG (B.make_piece Color.BLACK pt) (pv1 Phase.EG pt)
  let v := make_score (pv2 Phase.MG pt) (pv2 Phase.EG pt)
  { g with
    PieceValue := pv2
    psq := (List.range SQUARE_COUNT).foldl (PSQT.initSquare B v pt) g.psq }

/-- The piece types `PAWN..KING` the outer loop of `PSQT::init` runs over. -/
def pieceTypes : List Nat :=
  List.range' PieceType.PAWN.idx (PieceType.KING.idx + 1 - PieceType.PAWN.idx)

/-- `PSQT::init`. -/
def PSQT.init (B : Board) (g : Globals) : Globals :=
  pieceTypes.foldl (PSQT.initPiece B) g

/-! ## `src/evaluate.cpp`: `Eval::init` -/

/-- `struct Weight { int mg, eg; }`. -/
structure Weight where
  mg : Int
  eg : Int
deriving DecidableEq, Repr

/-- `Weights[]`, indexed by `PawnStructure, PassedPawns, Space, KingSafety`. -/
def Weights : List Weight := [⟨214, 203⟩, ⟨193, 262⟩, ⟨47, 0⟩, ⟨330, 0⟩]

/-- The enumerator `KingSafety`. -/
def KingSafety : Nat := 3

/-- `operator*(Score s, const Weight& w)`. -/
def Score.mulWeight (s : Score) (w : Weight) : Score :=
  make_score ((mg_value s * w.mg).tdiv 256) ((eg_value s * w.eg).tdiv 256)

/-- The local constant `MaxSlope` of `Eval::init`. -/
def MaxSlope : Int := 8700

/-- The local constant `Peak` of `Eval::init`. -/
def Peak : Int := 1280000

/-- One turn of the loop of `Eval::init`: the state is the local `t` and the
table `KingDanger`. -/
def Eval.initStep (st : Int × (Nat → Score)) (i : Nat) : Int × (Nat → Score) :=
  let t := min Peak (min ((i : Int) * i * 27) (st.1 + MaxSlope))
  (t, Function.update st.2 i
        (Score.mulWeight (make_score (t.tdiv 1000) 0) (Weights.getD KingSafety ⟨0, 0⟩)))

/-- `Eval::init`: the loop `for (int i = 0, t = 0; i < 400; ++i)`. -/
def Eval.init (g : Globals) : Globals :=
  { g with KingDanger := ((List.range 400).foldl Eval.initStep (0, g.KingDanger)).2 }

/-- The value of the local `t` of `Eval::init` at the end of the turn `i` of
its loop (it starts from 0 before the turn 0). -/
def Eval.tAfter : Nat → Int
  | 0 => min Peak (min (((0 : Nat) : Int) * (0 : Nat) * 27) (0 + MaxSlope))
  | i + 1 => min Peak (min (((i + 1 : Nat) : Int) * (i + 1 : Nat) * 27)
                        (Eval.tAfter i + MaxSlope))

/-- The score `make_score(t / 1000, 0) * Weights[KingSafety]` stored in
`KingDanger[i]`, for the value `t` of the turn `i`. -/
def Eval.kingDangerEntry (i : Nat) : Score :=
  Score.mulWeight (make_score ((Eval.tAfter i).tdiv 1000) 0) (Weights.getD KingSafety ⟨0, 0⟩)

/-! ## `src/evaluate.cpp`: `eval_init` -/

/-- The constants `eval_init` reads from the missing `types.h`: the rook value,
the square deltas one rank down and up the board, and the index of the
aggregate row of `attackedBy`. -/
structure EvalConsts where
  /-- `ROOK_VALUE_MG` -/
  ROOK_VALUE_MG : Int
  /-- `DELTA_S` -/
  DELTA_S : Int
  /-- `DELTA_N` -/
  DELTA_N : Int
  /-- `ALL_PIECES` -/
  ALL_PIECES : Nat

/-- The value `a.bb0 + 2^64 * a.bb1` of the two words read as one number, bit
`i` standing for the square `i`. -/
def Bitboard.toNat (a : Bitboard) : Nat := a.bb0 + 2 ^ 64 * a.bb1

/-- The bitboard of the low 90 bits of a number. -/
def Bitboard.ofNat (n : Nat) : Bitboard := ⟨n % 2 ^ 64, (n / 2 ^ 64) % 2 ^ 26⟩

/-- Modelled from the spec: `shift_bb(b, d)`, the shift by a square delta,
which "must correctly propagate bits across the low/high word boundary in both
directions; shifting past either end discards bits rather than wrapping". -/
def shift_bb (b : Bitboard) (d : Int) : Bitboard :=
  if 0 ≤ d then Bitboard.ofNat (b.toNat <<< d.toNat)
  else Bitboard.ofNat (b.toNat >>> (-d).toNat)

/-- The entry of the pawn hash table `EvalInfo::pi` points to: the answer of
`pawn_attacks(c)`. -/
structure PawnsEntry where
  pawn_attacks : Color → Bitboard

/-- `struct EvalInfo`. -/
structure EvalInfo where
  /-- `Bitboard attackedBy[COLOR_NB][PIECE_TYPE_NB]` -/
  attackedBy : Color → Nat → Bitboard
  /-- `Bitboard kingRing[COLOR_NB]` -/
  kingRing : Color → Bitboard
  /-- `int kingAttackersCount[COLOR_NB]` -/
  kingAttackersCount : Color → Int
  /-- `int kingAttackersWeight[COLOR_NB]` -/
  kingAttackersWeight : Color → Int
  /-- `int kingAdjacentZoneAttacksCount[COLOR_NB]` -/
  kingAdjacentZoneAttacksCount : Color → Int
  /-- `Bitboard pinnedPieces[COLOR_NB]` -/
  pinnedPieces : Color → Bitboard
  /-- `Pawns::Entry* pi` -/
  pi : PawnsEntry

/-- The write `attackedBy[c][pt] = b`. -/
def setAttackedBy (ab : Color → Nat → Bitboard) (c : Color) (pt : Nat) (b : Bitboard) :
    Color → Nat → Bitboard :=
  fun c1 pt1 => if c1 = c ∧ pt1 = pt then b else ab c1 pt1

/-- The conversion of a `Bitboard` to `int` in `cond ? popcount(b) : Bitboard()`
and in `x = Bitboard()`: through `operator bool`. -/
def Bitboard.toInt (a : Bitboard) : Int := if a.toBool then 1 else 0

/-- The function template `eval_init<Us>`. -/
def eval_init (E : EvalConsts) (Us : Color) (pos : Position) (ei : EvalInfo) : EvalInfo :=
  let Them := Us.them
  let Down := if Us = Color.WHITE then E.DELTA_S else E.DELTA_N
  let ei1 := { ei with pinnedPieces := Function.update ei.pinnedPieces Us (pos.pinned_pieces Us) }
  let b := pos.king_attacks Them
  let ei2 := { ei1 with attackedBy := setAttackedBy ei1.attackedBy Them PieceType.KING.idx b }
  let ei3 := { ei2 with
    attackedBy := setAttackedBy ei2.attackedBy Them E.ALL_PIECES
      ((ei2.attackedBy Them E.ALL_PIECES).or b) }
  let pa := ei3.pi.pawn_attacks Us
  let ei4 := { ei3 with attackedBy := setAttackedBy ei3.attackedBy Us PieceType.PAWN.idx pa }
  let ei5 := { ei4 with
    attackedBy := setAttackedBy ei4.attackedBy Us E.ALL_PIECES
      ((ei4.attackedBy Us E.ALL_PIECES).or pa) }
  if E.ROOK_VALUE_MG ≤ pos.non_pawn_material Us then
    let ei6 := { ei5 with kingRing := Function.update ei5.kingRing Them (b.or (shift_bb b Down)) }
    let b1 := b.and (ei6.attackedBy Us PieceType.PAWN.idx)
    let ei7 := { ei6 with
      kingAttackersCount := Function.update ei6.kingAttackersCount Us
        (if b1.toBool then (b1.popcount : Int) else Bitboard.empty.toInt) }
    let ei8 := { ei7 with
      kingAttackersWeight := Function.update ei7.kingAttackersWeight Us Bitboard.empty.toInt }
    { ei8 with
      kingAdjacentZoneAttacksCount :=
        Function.update ei8.kingAdjacentZoneAttacksCount Us (ei8.kingAttackersWeight Us) }
  else
    let ei6 := { ei5 with kingRing := Function.update ei5.kingRing Them Bitboard.empty }
    { ei6 with kingAttackersCount := Function.update ei6.kingAttackersCount Us 0 }

/-! ## Statements of the specification that are compared with the code -/

/-- Specification side (step 5 of the evaluator): the game-phase
interpolation of the running score, for game phase `ph` and scale factor `sf`,
`(mg * ph + eg * (PHASE_MIDGAME - ph) * sf / SCALE_FACTOR_NORMAL) / PHASE_MIDGAME`. -/
def interpolateSpec (K : Consts) (ph sf : Int) (score : Score) : Int :=
  (mg_value score * ph
    + (eg_value score * (K.PHASE_MIDGAME - ph) * sf).tdiv K.SCALE_FACTOR_NORMAL).tdiv
      K.PHASE_MIDGAME

/-- Modelled from the spec: `Entry::imbalance()` of the missing `material.h`,
the cached imbalance value as a score, the same in both game-phase components. -/
def Entry.imbalance (e : Entry) : Score := make_score e.value e.value

/-- Specification side (step 4 of the evaluator): for White to move the result
is the one obtained from the psq score with the imbalance of the material
entry of the position merged in. -/
def MergesImbalance (K : Consts) (pos : Position) : Prop :=
  evaluate K pos = some (whiteValue K (pos.psq_score + (probeEntry K pos).imbalance) + K.Tempo)

/-- Specification side (sign convention): `evaluate(P) - Tempo` and
`evaluate(Q) - Tempo` are opposite. -/
def OppositeUpToTempo (K : Consts) (p q : Position) : Prop :=
  ∃ a b : Int, evaluate K p = some a ∧ evaluate K q = some b ∧ a - K.Tempo = -(b - K.Tempo)

/-- The piece counts of a side are within the Xiangqi set: at most five pawns
and at most two of each of advisor, bishop, knight, cannon and rook. -/
def LegalCounts (pos : Position) (c : Color) : Prop :=
  pos.count PieceType.PAWN c ≤ 5 ∧ pos.count PieceType.ADVISOR c ≤ 2
    ∧ pos.count PieceType.BISHOP c ≤ 2 ∧ pos.count PieceType.KNIGHT c ≤ 2
    ∧ pos.count PieceType.CANNON c ≤ 2 ∧ pos.count PieceType.ROOK c ≤ 2

instance (pos : Position) (c : Color) : Decidable (LegalCounts pos c) := by
  unfold LegalCounts
  exact inferInstance

/-- Both sides have legal piece counts. -/
def LegalMaterial (pos : Position) : Prop :=
  LegalCounts pos Color.WHITE ∧ LegalCounts pos Color.BLACK

instance (pos : Position) : Decidable (LegalMaterial pos) := by
  unfold LegalMaterial
  exact inferInstance

/-- The position with the piece counts of the two sides exchanged. -/
def Position.swapCounts (pos : Position) : Position :=
  { pos with count := fun pt c => pos.count pt c.them }

/-- Specification side (step 6 of the Material Cache): the imbalance of `Us`
as the sum, over the piece types `pt1` in pair..rook that `Us` owns, of the
count times the linear term plus the cross terms with the own pieces of type
up to and including `pt1` and with the opponent's pieces of EVERY type in
pair..rook. -/
def imbalanceSpec (Us : Color) (pieceCount : Color → List Int) : Int :=
  (((List.range 7).filter (fun pt1 => (pieceCount Us).getD pt1 0 ≠ 0)).map
    (fun pt1 =>
      (pieceCount Us).getD pt1 0
        * (Linear.getD pt1 0
            + ((List.range (pt1 + 1)).map
                (fun pt2 => tableAt QuadraticOurs pt1 pt2 * (pieceCount Us).getD pt2 0)).sum
            + ((List.range 7).map
                (fun pt2 => tableAt QuadraticTheirs pt1 pt2
                              * (pieceCount Us.them).getD pt2 0)).sum))).sum

/-- The square operator `~` maps the 90 squares to themselves and is its own
inverse there. -/
def Board.MirrorInvolution (B : Board) : Prop :=
  ∀ s, s < SQUARE_COUNT → B.mirror s < SQUARE_COUNT ∧ B.mirror (B.mirror s) = s

/-- The codes of the black pieces are apart from the codes `PAWN..KING`, which
index `PieceValue` as the white pieces. -/
def Board.BlackCodesApart (B : Board) : Prop :=
  ∀ pt, pt ∈ pieceTypes → B.make_piece Color.BLACK pt ∉ pieceTypes

/-- Every square lies on one of the files A..I. -/
def Board.FilesInRange (B : Board) : Prop :=
  ∀ s, s < SQUARE_COUNT → B.file_of s ≤ FILE_I

/-- Specification side: the white half of `psq` holds, for every piece type in
`PAWN..KING` and every square, the base value of the piece plus its template
bonus. -/
def PsqtPopulated (B : Board) (g : Globals) : Prop :=
  ∀ pt, pt ∈ pieceTypes → ∀ s, s < SQUARE_COUNT →
    g.psq Color.WHITE pt s
      = make_score (g.PieceValue Phase.MG pt) (g.PieceValue Phase.EG pt)
          + bonusAt pt (B.rank_of s) (min (B.file_of s) (FILE_I - B.file_of s))

/-- The bitboard after `k` calls of `pop_lsb`. -/
def Bitboard.popMany (a : Bitboard) (k : Nat) : Bitboard :=
  Nat.iterate Bitboard.pop_lsb k a

/-- Specification side (step 2 of the evaluator): the attacker count of `Us`
is seeded with the number of squares of the enemy king ring, as `eval_init`
has just computed it, that the pawns of `Us` attack. -/
def SeedsFromKingRing (E : EvalConsts) (Us : Color) (pos : Position) (ei : EvalInfo) : Prop :=
  (eval_init E Us pos ei).kingAttackersCount Us
    = ((((eval_init E Us pos ei).kingRing Us.them).and (ei.pi.pawn_attacks Us)).popcount : Int)

/-! ## Concrete inputs -/

/-- A thread whose material table was just created (every slot zero), with an
empty endgame registry and 8192 slots selected by the low bits of the key. -/
def freshThread : Thread where
  slot := fun key => key % 8192
  materialTable := fun _ => Entry.zero
  endgames := ⟨fun _ => none, fun _ => none⟩

/-- A thread with a fresh material table whose endgame registry holds, for the
key 4711, both a specialised evaluator and a scaling function. -/
def registryThread : Thread where
  slot := fun key => key % 8192
  materialTable := fun _ => Entry.zero
  endgames :=
    ⟨fun key => if key = 4711 then some ⟨1, Color.WHITE⟩ else none,
     fun key => if key = 4711 then some ⟨2, Color.BLACK⟩ else none⟩

/-- Two bare kings: no other piece on the board. -/
def noPieces : PieceType → Color → Nat := fun _ _ => 0

/-- White has one rook, Black has nothing but the king. -/
def whiteRook : PieceType → Color → Nat := fun pt c =>
  if pt = PieceType.ROOK ∧ c = Color.WHITE then 1 else 0

/-- A quiet position with White to move, psq score (100, 40), game phase
`PHASE_MIDGAME` of `stockfishConsts`, White a rook up, on a fresh thread. -/
def rookUpPosition : Position where
  psq_score := make_score 100 40
  side_to_move := Color.WHITE
  checkers := false
  game_phase := 128
  material_key := 4711
  count := whiteRook
  this_thread := freshThread

/-- The colour-reversed mirror of `rookUpPosition`: psq score negated, Black
to move, the counts exchanged. -/
def rookUpMirror : Position where
  psq_score := -(make_score 100 40)
  side_to_move := Color.BLACK
  checkers := false
  game_phase := 128
  material_key := 4712
  count := fun pt c => whiteRook pt c.them
  this_thread := freshThread

/-- A quiet bare-kings position at game phase 0 whose running score has only
an endgame component. -/
def endgameOnlyPosition : Position where
  psq_score := make_score 0 100
  side_to_move := Color.WHITE
  checkers := false
  game_phase := 0
  material_key := 815
  count := noPieces
  this_thread := freshThread

/-- A quiet bare-kings position whose material key is 0, on a fresh thread. -/
def zeroKeyPosition : Position where
  psq_score := SCORE_ZERO
  side_to_move := Color.WHITE
  checkers := false
  game_phase := 128
  material_key := 0
  count := noPieces
  this_thread := freshThread

/-- A thread with a fresh material table whose endgame registry holds, for the
key 4711, a scaling function with strong side Black and no evaluator. -/
def scalingThread : Thread where
  slot := fun key => key % 8192
  materialTable := fun _ => Entry.zero
  endgames :=
    ⟨fun _ => none,
     fun key => if key = 4711 then some ⟨2, Color.BLACK⟩ else none⟩

/-- A board in the usual layout: square `9 * rank + file`, `~s` the point
reflection `SQ_I9 - s`, black pieces coded as `8 + pt`. -/
def xiangqiBoard : Board where
  file_of := fun s => s % 9
  rank_of := fun s => s / 9
  mirror := fun s => 89 - s
  make_piece := fun c pt => if c = Color.WHITE then pt else 8 + pt

/-- Sample piece values, the same in both phases: pawn 100, advisor 200,
bishop 250, knight 450, cannon 500, rook 1000, king 0. -/
def sampleValue : Nat → Int
  | 1 => 100
  | 2 => 200
  | 3 => 250
  | 4 => 450
  | 5 => 500
  | 6 => 1000
  | _ => 0

/-- The global tables before any `init`: `psq` and `KingDanger` all zero (static
storage), `PieceValue` with the sample values. -/
def startGlobals : Globals where
  psq := fun _ _ _ => SCORE_ZERO
  PieceValue := fun _ i => sampleValue i
  KingDanger := fun _ => SCORE_ZERO

/-- The position `rookUpPosition` with one more white rook on the square `s`:
the psq score grows by `psq[WHITE][ROOK][s]` of the initialised table. -/
def rookAdded (s : Nat) : Position :=
  { rookUpPosition with
    psq_score := rookUpPosition.psq_score
      + (PSQT.init xiangqiBoard startGlobals).psq Color.WHITE PieceType.ROOK.idx s
    count := fun pt c => if pt = PieceType.ROOK ∧ c = Color.WHITE then 2 else 0 }

/-- A quiet position with the two kings only, Black to move. -/
def bareKingsPosition : Position where
  psq_score := SCORE_ZERO
  side_to_move := Color.BLACK
  checkers := false
  game_phase := 0
  material_key := 17
  count := noPieces
  this_thread := freshThread

/-- A bitboard with the squares 3, 70 and 89. -/
def sampleBitboard : Bitboard := ⟨8, 2 ^ 6 + 2 ^ 25⟩

/-- Constants of `eval_init` for the usual board: rook value 1000, one rank
down is 9 squares down, the aggregate row of `attackedBy` is row 0. -/
def xiangqiEvalConsts : EvalConsts where
  ROOK_VALUE_MG := 1000
  DELTA_S := -9
  DELTA_N := 9
  ALL_PIECES := 0

/-- An `EvalInfo` with all tables zero whose pawn entry says that the white
pawns attack the squares 57, 59 and 67 (a white pawn on e6, across the river). -/
def pawnOnE6Info : EvalInfo where
  attackedBy := fun _ _ => Bitboard.empty
  kingRing := fun _ => Bitboard.empty
  kingAttackersCount := fun _ => 0
  kingAttackersWeight := fun _ => 0
  kingAdjacentZoneAttacksCount := fun _ => 0
  pinnedPieces := fun _ => Bitboard.empty
  pi := ⟨fun c => if c = Color.WHITE then ⟨2 ^ 57 + 2 ^ 59, 2 ^ 3⟩ else Bitboard.empty⟩

/-- A quiet position with White to move and a rook's worth of white material,
the black king on e9 (square 85) attacking the squares 76, 84 and 86. -/
def kingOnE9Position : Position where
  psq_score := make_score 100 40
  side_to_move := Color.WHITE
  checkers := false
  game_phase := 64
  material_key := 4711
  count := whiteRook
  this_thread := freshThread
  non_pawn_material := fun c => if c = Color.WHITE then 1000 else 0
  king_attacks := fun c =>
    if c = Color.BLACK then ⟨0, 2 ^ 12 + 2 ^ 20 + 2 ^ 22⟩ else Bitboard.empty

/-- The position `kingOnE9Position` seen with another endgame component of
the psq score, game phase, thread, non-pawn material, pins and king attacks. -/
def kingOnE9Variant : Position where
  psq_score := make_score 100 (-700)
  side_to_move := Color.WHITE
  checkers := false
  game_phase := 3
  material_key := 99
  count := noPieces
  this_thread := registryThread
  non_pawn_material := fun _ => 0
  pinned_pieces := fun _ => ⟨2 ^ 10, 0⟩
  king_attacks := fun _ => ⟨2 ^ 5, 0⟩

/-! ## Lemmas on `Eval::evaluate` -/

theorem whiteValue_eq (K : Consts) (s : Score) :
    whiteValue K s = (mg_value s * K.PHASE_MIDGAME).tdiv K.PHASE_MIDGAME := by
  simp [whiteValue]

theorem whiteValue_eq_mg (K : Consts) (h : K.PHASE_MIDGAME ≠ 0) (s : Score) :
    whiteValue K s = mg_value s := by
  rw [whiteValue_eq, Int.mul_tdiv_cancel _ h]

theorem whiteValue_neg (K : Consts) (s : Score) : whiteValue K (-s) = -whiteValue K s := by
  rw [whiteValue_eq, whiteValue_eq]
  show ((-s.mg) * K.PHASE_MIDGAME).tdiv K.PHASE_MIDGAME = _
  rw [neg_mul, Int.neg_tdiv]
  rfl

theorem evaluate_quiet (K : Consts) (pos : Position) (h : pos.checkers = false) :
    evaluate K pos
      = some ((if pos.side_to_move = Color.WHITE then whiteValue K pos.psq_score
                else -whiteValue K pos.psq_score) + K.Tempo) := by
  simp [evaluate, h]

/-! ## The evaluator: orientation, interpolation, material, sign convention -/

/-- C1. For every position that is not in check, the same position evaluated
with White to move and with Black to move gives results that are opposite once
the tempo bonus is subtracted: `evaluate(W) - Tempo = -(evaluate(B) - Tempo)`. -/
theorem evaluate_orients_to_side_to_move (K : Consts) (pos : Position)
    (h : pos.checkers = false) :
    ∃ w b : Int,
      evaluate K { pos with side_to_move := Color.WHITE } = some w
      ∧ evaluate K { pos with side_to_move := Color.BLACK } = some b
      ∧ w - K.Tempo = -(b - K.Tempo) := by
  refine ⟨whiteValue K pos.psq_score + K.Tempo, -whiteValue K pos.psq_score + K.Tempo, ?_, ?_, ?_⟩
  · simp [evaluate, h]
  · simp [evaluate, h]
  · ring

/-- Witness of C1 at `rookUpPosition`. -/
theorem evaluate_orients_to_side_to_move_witness :
    rookUpPosition.checkers = false
    ∧ ∃ w b : Int,
      evaluate stockfishConsts { rookUpPosition with side_to_move := Color.WHITE } = some w
      ∧ evaluate stockfishConsts { rookUpPosition with side_to_move := Color.BLACK } = some b
      ∧ w - stockfishConsts.Tempo = -(b - stockfishConsts.Tempo) :=
  ⟨rfl, evaluate_orients_to_side_to_move stockfishConsts rookUpPosition rfl⟩

/-- C2, the code at the failing input.  For valid constants, at the quiet
position with running score (mg, eg) = (0, 100) and game phase 0 the
interpolation of the specification is 100 (scale factor normal), while
`Eval::evaluate` weighs the endgame component with
`PHASE_MIDGAME - PHASE_MIDGAME = 0`: its White value is 0 and it returns the
tempo bonus alone. -/
theorem evaluate_drops_endgame_component (K : Consts) (hK : K.Valid) :
    interpolateSpec K endgameOnlyPosition.game_phase K.SCALE_FACTOR_NORMAL
        endgameOnlyPosition.psq_score = 100
    ∧ whiteValue K endgameOnlyPosition.psq_score = 0
    ∧ evaluate K endgameOnlyPosition = some K.Tempo := by
  obtain ⟨hpm, hsf, -⟩ := hK
  have hpm0 : K.PHASE_MIDGAME ≠ 0 := ne_of_gt hpm
  have hsf0 : K.SCALE_FACTOR_NORMAL ≠ 0 := ne_of_gt hsf
  refine ⟨?_, ?_, ?_⟩
  · simp only [interpolateSpec, endgameOnlyPosition, make_score, mg_value, eg_value]
    rw [mul_zero, zero_add, sub_zero, Int.mul_tdiv_cancel _ hsf0, Int.mul_tdiv_cancel _ hpm0]
  · rw [whiteValue_eq_mg K hpm0]
    rfl
  · rw [evaluate_quiet K _ rfl, whiteValue_eq_mg K hpm0]
    simp [endgameOnlyPosition, make_score, mg_value]

/-- Witness of the C2 evaluation at the Stockfish constants. -/
theorem evaluate_drops_endgame_component_witness :
    stockfishConsts.Valid
    ∧ interpolateSpec stockfishConsts endgameOnlyPosition.game_phase
        stockfishConsts.SCALE_FACTOR_NORMAL endgameOnlyPosition.psq_score = 100
    ∧ whiteValue stockfishConsts endgameOnlyPosition.psq_score = 0
    ∧ evaluate stockfishConsts endgameOnlyPosition = some stockfishConsts.Tempo :=
  ⟨by decide, evaluate_drops_endgame_component stockfishConsts (by decide)⟩

/-- C3 as stated fails: at `rookUpPosition` (White to move, not in check) the
material entry of the position has imbalance value 14, and the result of
`evaluate` is not the result obtained with that imbalance merged in. -/
theorem evaluate_merges_imbalance_fails :
    (probeEntry stockfishConsts rookUpPosition).value = 14
    ∧ ¬ MergesImbalance stockfishConsts rookUpPosition := by
  refine ⟨by decide, ?_⟩
  unfold MergesImbalance
  decide

/-- C3 amended. `Eval::evaluate` does not consult the Material Cache: for
every position not in check with White to move the result is the one obtained
from the psq score alone, and it is the same on every thread state (material
table and endgame registry). -/
theorem evaluate_ignores_material_entry (K : Consts) (pos : Position)
    (h : pos.checkers = false) (hw : pos.side_to_move = Color.WHITE) :
    evaluate K pos = some (whiteValue K pos.psq_score + K.Tempo)
    ∧ ∀ th : Thread, evaluate K (pos.onThread th) = evaluate K pos := by
  refine ⟨?_, fun th => rfl⟩
  rw [evaluate_quiet K pos h, if_pos hw]

/-- Witness of C3 amended at `rookUpPosition`. -/
theorem evaluate_ignores_material_entry_witness :
    rookUpPosition.checkers = false ∧ rookUpPosition.side_to_move = Color.WHITE
    ∧ evaluate stockfishConsts rookUpPosition
        = some (whiteValue stockfishConsts rookUpPosition.psq_score + stockfishConsts.Tempo)
    ∧ ∀ th : Thread,
        evaluate stockfishConsts (rookUpPosition.onThread th)
          = evaluate stockfishConsts rookUpPosition :=
  ⟨rfl, rfl, evaluate_ignores_material_entry stockfishConsts rookUpPosition rfl rfl⟩

/-- C4 as stated fails: `rookUpMirror` is the colour-reversed mirror of
`rookUpPosition` (counts exchanged, psq score negated, side to move flipped,
neither in check), both evaluate to 120, and 120 - Tempo is not -(120 - Tempo). -/
theorem evaluate_sign_convention_fails :
    rookUpMirror.psq_score = -rookUpPosition.psq_score
    ∧ rookUpMirror.side_to_move = rookUpPosition.side_to_move.them
    ∧ (∀ pt c, rookUpMirror.count pt c = rookUpPosition.count pt c.them)
    ∧ rookUpPosition.checkers = false ∧ rookUpMirror.checkers = false
    ∧ evaluate stockfishConsts rookUpPosition = some 120
    ∧ evaluate stockfishConsts rookUpMirror = some 120
    ∧ ¬ OppositeUpToTempo stockfishConsts rookUpPosition rookUpMirror := by
  refine ⟨rfl, rfl, fun _ _ => rfl, rfl, rfl, by decide, by decide, ?_⟩
  rintro ⟨a, b, ha, hb, hab⟩
  have ha2 : evaluate stockfishConsts rookUpPosition = some 120 := by decide
  have hb2 : evaluate stockfishConsts rookUpMirror = some 120 := by decide
  rw [ha2] at ha
  rw [hb2] at hb
  cases ha
  cases hb
  revert hab
  decide

/-- C4 amended. A position not in check and its colour-reversed mirror (psq
score negated, side to move flipped, not in check) evaluate to the same value:
`evaluate(P) == evaluate(P')`, tempo bonus included. -/
theorem evaluate_mirror_invariant (K : Consts) (p q : Position)
    (hp : p.checkers = false) (hq : q.checkers = false)
    (hpsq : q.psq_score = -p.psq_score)
    (hstm : q.side_to_move = p.side_to_move.them) :
    evaluate K p = evaluate K q := by
  rw [evaluate_quiet K p hp, evaluate_quiet K q hq, hpsq, hstm, whiteValue_neg]
  cases hs : p.side_to_move <;> simp [Color.them]

/-- Witness of C4 amended at `rookUpPosition` and its mirror. -/
theorem evaluate_mirror_invariant_witness :
    rookUpPosition.checkers = false ∧ rookUpMirror.checkers = false
    ∧ rookUpMirror.psq_score = -rookUpPosition.psq_score
    ∧ rookUpMirror.side_to_move = rookUpPosition.side_to_move.them
    ∧ evaluate stockfishConsts rookUpPosition = evaluate stockfishConsts rookUpMirror :=
  ⟨rfl, rfl, rfl, rfl,
    evaluate_mirror_invariant stockfishConsts rookUpPosition rookUpMirror rfl rfl rfl rfl⟩

/-! ## Lemmas on `imbalance` -/

theorem Color.them_them (c : Color) : c.them.them = c := by
  cases c <;> rfl

/-- Skipping a piece type with count zero adds nothing. -/
theorem skip_zero_count (bonus c v : Int) :
    (if c = 0 then bonus else bonus + c * v) = bonus + c * v := by
  by_cases h : c = 0
  · simp [h]
  · simp [h]

/-- The polynomial `imbalance<Us>` computes from the two rows of counts. -/
theorem imbalance_rows (Us : Color) (pc : Color → List Int)
    (u0 u1 u2 u3 u4 u5 u6 t0 t1 t2 t3 t4 t5 t6 : Int)
    (hu : pc Us = [u0, u1, u2, u3, u4, u5, u6])
    (ht : pc Us.them = [t0, t1, t2, t3, t4, t5, t6]) :
    imbalance Us pc
      = u0 * (1667 + 1667 * u0)
        + u1 * (-168 + 40 * u0 + 36 * t0 + 2 * u1)
        + u2 * (-168)
        + u3 * (-166 + 59 * t0 + 104 * u1 + 65 * t1 + 4 * u2 + 42 * t2)
        + u4 * (-1027 + 32 * u0 + 9 * t0 + 255 * u1 + 63 * t1 - 3 * u2)
        + u5 * (-138 - 26 * u0 + 46 * t0 - 2 * u1 + 39 * t1 + 47 * u2 + 24 * t2
                + 105 * u3 - 24 * t3 - 149 * u4)
        + u6 * (238 - 185 * u0 + 101 * t0 + 24 * u1 + 100 * t1 + 122 * u2 - 37 * t2
                + 137 * u3 + 141 * t3 - 134 * u4 + 268 * t4) := by
  simp only [imbalance, imbalanceInner, skip_zero_count, hu, ht, PieceType.idx]
  simp [List.range, List.range.loop, tableAt, QuadraticOurs, QuadraticTheirs, Linear]
  ring

/-- A product of a count in `0..n` and a factor in `-V..V` lies in `-(n*V)..n*V`. -/
theorem mul_bound (c v n V : Int) (h0 : 0 ≤ c) (hn : c ≤ n) (hl : -V ≤ v) (hu : v ≤ V) :
    -(n * V) ≤ c * v ∧ c * v ≤ n * V := by
  have hV : 0 ≤ V := by linarith
  have h1 : 0 ≤ c * (V - v) := mul_nonneg h0 (by linarith)
  have h2 : 0 ≤ c * (v + V) := mul_nonneg h0 (by linarith)
  have h3 : 0 ≤ (n - c) * V := mul_nonneg (by linarith) hV
  constructor <;> nlinarith

/-- The polynomial of `imbalance_rows` on counts within the Xiangqi ranges. -/
theorem imbalance_poly_bound (u0 u1 u2 u3 u4 u5 u6 t0 t1 t2 t3 t4 : Int)
    (hu0 : 0 ≤ u0 ∧ u0 ≤ 1) (hu1 : 0 ≤ u1 ∧ u1 ≤ 5) (hu2 : 0 ≤ u2 ∧ u2 ≤ 2)
    (hu3 : 0 ≤ u3 ∧ u3 ≤ 2) (hu4 : 0 ≤ u4 ∧ u4 ≤ 2) (hu5 : 0 ≤ u5 ∧ u5 ≤ 2)
    (hu6 : 0 ≤ u6 ∧ u6 ≤ 2)
    (ht0 : 0 ≤ t0 ∧ t0 ≤ 1) (ht1 : 0 ≤ t1 ∧ t1 ≤ 5) (ht2 : 0 ≤ t2 ∧ t2 ≤ 2)
    (ht3 : 0 ≤ t3 ∧ t3 ≤ 2) (ht4 : 0 ≤ t4 ∧ t4 ≤ 2) :
    -20462 ≤
        u0 * (1667 + 1667 * u0)
        + u1 * (-168 + 40 * u0 + 36 * t0 + 2 * u1)
        + u2 * (-168)
        + u3 * (-166 + 59 * t0 + 104 * u1 + 65 * t1 + 4 * u2 + 42 * t2)
        + u4 * (-1027 + 32 * u0 + 9 * t0 + 255 * u1 + 63 * t1 - 3 * u2)
        + u5 * (-138 - 26 * u0 + 46 * t0 - 2 * u1 + 39 * t1 + 47 * u2 + 24 * t2
                + 105 * u3 - 24 * t3 - 149 * u4)
        + u6 * (238 - 185 * u0 + 101 * t0 + 24 * u1 + 100 * t1 + 122 * u2 - 37 * t2
                + 137 * u3 + 141 * t3 - 134 * u4 + 268 * t4)
    ∧
        u0 * (1667 + 1667 * u0)
        + u1 * (-168 + 40 * u0 + 36 * t0 + 2 * u1)
        + u2 * (-168)
        + u3 * (-166 + 59 * t0 + 104 * u1 + 65 * t1 + 4 * u2 + 42 * t2)
        + u4 * (-1027 + 32 * u0 + 9 * t0 + 255 * u1 + 63 * t1 - 3 * u2)
        + u5 * (-138 - 26 * u0 + 46 * t0 - 2 * u1 + 39 * t1 + 47 * u2 + 24 * t2
                + 105 * u3 - 24 * t3 - 149 * u4)
        + u6 * (238 - 185 * u0 + 101 * t0 + 24 * u1 + 100 * t1 + 122 * u2 - 37 * t2
                + 137 * u3 + 141 * t3 - 134 * u4 + 268 * t4)
      ≤ 20462 := by
  obtain ⟨a0, b0⟩ := mul_bound u0 (1667 + 1667 * u0) 1 3334 hu0.1 hu0.2
    (by linarith [hu0.1, hu0.2]) (by linarith [hu0.1, hu0.2])
  obtain ⟨a1, b1⟩ := mul_bound u1 (-168 + 40 * u0 + 36 * t0 + 2 * u1) 5 254 hu1.1 hu1.2
    (by linarith [hu0.1, ht0.1, hu1.1]) (by linarith [hu0.2, ht0.2, hu1.2])
  obtain ⟨a2, b2⟩ := mul_bound u2 (-168) 2 168 hu2.1 hu2.2 (by norm_num) (by norm_num)
  obtain ⟨a3, b3⟩ := mul_bound u3
    (-166 + 59 * t0 + 104 * u1 + 65 * t1 + 4 * u2 + 42 * t2) 2 1162 hu3.1 hu3.2
    (by linarith [ht0.1, hu1.1, ht1.1, hu2.1, ht2.1])
    (by linarith [ht0.2, hu1.2, ht1.2, hu2.2, ht2.2])
  obtain ⟨a4, b4⟩ := mul_bound u4
    (-1027 + 32 * u0 + 9 * t0 + 255 * u1 + 63 * t1 - 3 * u2) 2 2664 hu4.1 hu4.2
    (by linarith [hu0.1, ht0.1, hu1.1, ht1.1, hu2.2])
    (by linarith [hu0.2, ht0.2, hu1.2, ht1.2, hu2.1])
  obtain ⟨a5, b5⟩ := mul_bound u5
    (-138 - 26 * u0 + 46 * t0 - 2 * u1 + 39 * t1 + 47 * u2 + 24 * t2
      + 105 * u3 - 24 * t3 - 149 * u4) 2 1113 hu5.1 hu5.2
    (by linarith [hu0.2, ht0.1, hu1.2, ht1.1, hu2.1, ht2.1, hu3.1, ht3.2, hu4.2])
    (by linarith [hu0.1, ht0.2, hu1.1, ht1.2, hu2.2, ht2.2, hu3.2, ht3.1, hu4.1])
  obtain ⟨a6, b6⟩ := mul_bound u6
    (238 - 185 * u0 + 101 * t0 + 24 * u1 + 100 * t1 + 122 * u2 - 37 * t2
      + 137 * u3 + 141 * t3 - 134 * u4 + 268 * t4) 2 2822 hu6.1 hu6.2
    (by linarith [hu0.2, ht0.1, hu1.1, ht1.1, hu2.1, ht2.2, hu3.1, ht3.1, hu4.2, ht4.1])
    (by linarith [hu0.1, ht0.2, hu1.2, ht1.2, hu2.2, ht2.1, hu3.2, ht3.2, hu4.1, ht4.2])
  constructor <;> linarith

/-- The entries of a row of `PieceCount` for legal counts: flag in 0..1,
pawns in 0..5, the others in 0..2. -/
theorem pieceCountRow_legal (pos : Position) (c : Color) (h : LegalCounts pos c) :
    ∃ u0 u1 u2 u3 u4 u5 u6 : Int,
      pieceCountRow pos c = [u0, u1, u2, u3, u4, u5, u6]
      ∧ (0 ≤ u0 ∧ u0 ≤ 1) ∧ (0 ≤ u1 ∧ u1 ≤ 5) ∧ (0 ≤ u2 ∧ u2 ≤ 2) ∧ (0 ≤ u3 ∧ u3 ≤ 2)
      ∧ (0 ≤ u4 ∧ u4 ≤ 2) ∧ (0 ≤ u5 ∧ u5 ≤ 2) ∧ (0 ≤ u6 ∧ u6 ≤ 2) := by
  obtain ⟨h1, h2, h3, h4, h5, h6⟩ := h
  refine ⟨_, _, _, _, _, _, _, rfl, ?_, ?_, ?_, ?_, ?_, ?_, ?_⟩
  · split <;> decide
  all_goals constructor <;> omega

theorem LegalMaterial.both {pos : Position} (h : LegalMaterial pos) (c : Color) :
    LegalCounts pos c := by
  cases c
  · exact h.1
  · exact h.2

/-- For legal material `imbalance<Us>` stays within -20462..20462. -/
theorem imbalance_bound (pos : Position) (h : LegalMaterial pos) (Us : Color) :
    -20462 ≤ imbalance Us (PieceCount pos) ∧ imbalance Us (PieceCount pos) ≤ 20462 := by
  obtain ⟨u0, u1, u2, u3, u4, u5, u6, hu, hu0, hu1, hu2, hu3, hu4, hu5, hu6⟩ :=
    pieceCountRow_legal pos Us (h.both Us)
  obtain ⟨t0, t1, t2, t3, t4, t5, t6, ht, ht0, ht1, ht2, ht3, ht4, -, -⟩ :=
    pieceCountRow_legal pos Us.them (h.both Us.them)
  rw [imbalance_rows Us (PieceCount pos) u0 u1 u2 u3 u4 u5 u6 t0 t1 t2 t3 t4 t5 t6 hu ht]
  exact imbalance_poly_bound u0 u1 u2 u3 u4 u5 u6 t0 t1 t2 t3 t4
    hu0 hu1 hu2 hu3 hu4 hu5 hu6 ht0 ht1 ht2 ht3 ht4

/-- The truncating quotient by 16 of a difference of two bounded imbalances. -/
theorem tdiv16_bound (x : Int) (h1 : -40924 ≤ x) (h2 : x ≤ 40924) :
    -2557 ≤ x.tdiv 16 ∧ x.tdiv 16 ≤ 2557 := by
  rcases le_total 0 x with h | h
  · rw [Int.tdiv_eq_ediv h (by norm_num)]
    omega
  · have e : x.tdiv 16 = -((-x).tdiv 16) := by rw [Int.neg_tdiv, neg_neg]
    rw [e, Int.tdiv_eq_ediv (by omega) (by norm_num)]
    omega

/-- For legal material the quotient stored by `Material::probe` is within
-2557..2557, far inside the range of `int16_t`. -/
theorem imbalanceQuot_bound (pos : Position) (h : LegalMaterial pos) :
    -2557 ≤ imbalanceQuot (PieceCount pos) ∧ imbalanceQuot (PieceCount pos) ≤ 2557 := by
  obtain ⟨w1, w2⟩ := imbalance_bound pos h Color.WHITE
  obtain ⟨b1, b2⟩ := imbalance_bound pos h Color.BLACK
  unfold imbalanceQuot
  exact tdiv16_bound _ (by linarith) (by linarith)

/-- The narrowing `int16_t(x)` keeps a value of the `int16_t` range. -/
theorem toInt16_of_range (x : Int) (h1 : -32768 ≤ x) (h2 : x ≤ 32767) : toInt16 x = x := by
  unfold toInt16
  omega

/-- Exchanging the rows of the counts exchanges the roles of the colours. -/
theorem imbalance_swap (Us : Color) (pc : Color → List Int) :
    imbalance Us (fun c => pc c.them) = imbalance Us.them pc := by
  simp only [imbalance, imbalanceInner, Color.them_them]

theorem PieceCount_swapCounts (pos : Position) :
    PieceCount pos.swapCounts = fun c => PieceCount pos c.them := rfl

theorem imbalanceQuot_swapCounts (pos : Position) :
    imbalanceQuot (PieceCount pos.swapCounts) = -imbalanceQuot (PieceCount pos) := by
  unfold imbalanceQuot
  rw [PieceCount_swapCounts, imbalance_swap, imbalance_swap, ← Int.neg_tdiv]
  congr 1
  simp [Color.them]

theorem LegalMaterial.swapCounts {pos : Position} (h : LegalMaterial pos) :
    LegalMaterial pos.swapCounts := ⟨h.2, h.1⟩

/-! ## Lemmas on `Material::probe` -/

theorem probe_slot (K : Consts) (pos : Position) :
    (probe K pos).2 = pos.this_thread.slot pos.material_key := by
  by_cases h : (pos.this_thread.materialTable (pos.this_thread.slot pos.material_key)).key
      = pos.material_key
  · simp [probe, h]
  · simp [probe, h]

theorem probe_thread_slot (K : Consts) (pos : Position) :
    (probe K pos).1.slot = pos.this_thread.slot := by
  by_cases h : (pos.this_thread.materialTable (pos.this_thread.slot pos.material_key)).key
      = pos.material_key
  · simp [probe, h]
  · simp [probe, h]

theorem probe_hit (K : Consts) (pos : Position)
    (h : (pos.this_thread.materialTable (pos.this_thread.slot pos.material_key)).key
          = pos.material_key) :
    probe K pos = (pos.this_thread, pos.this_thread.slot pos.material_key) := by
  simp [probe, h]

theorem probeEntry_miss (K : Consts) (pos : Position)
    (h : (pos.this_thread.materialTable (pos.this_thread.slot pos.material_key)).key
          ≠ pos.material_key) :
    probeEntry K pos = computeEntry K pos := by
  simp [probeEntry, probe, h]

theorem computeEntry_key (K : Consts) (pos : Position) :
    (computeEntry K pos).key = pos.material_key := by
  cases h1 : pos.this_thread.endgames.probeValue pos.material_key with
  | some f => simp [computeEntry, h1]
  | none =>
    cases h2 : pos.this_thread.endgames.probeScaleFactor pos.material_key with
    | some sf => simp [computeEntry, h1, h2]
    | none => simp [computeEntry, h1, h2]

theorem probeEntry_key (K : Consts) (pos : Position) :
    (probeEntry K pos).key = pos.material_key := by
  by_cases h : (pos.this_thread.materialTable (pos.this_thread.slot pos.material_key)).key
      = pos.material_key
  · simpa [probeEntry, probe_hit K pos h] using h
  · rw [probeEntry_miss K pos h, computeEntry_key]

/-- The entry of the generic path, the `int16_t` narrowing still in place. -/
theorem computeEntry_generic (K : Consts) (pos : Position)
    (hev : pos.this_thread.endgames.probeValue pos.material_key = none)
    (hsf : pos.this_thread.endgames.probeScaleFactor pos.material_key = none) :
    computeEntry K pos
      = { key := pos.material_key
          value := toInt16 (imbalanceQuot (PieceCount pos))
          factor := ⟨toUInt8 K.SCALE_FACTOR_NORMAL, toUInt8 K.SCALE_FACTOR_NORMAL⟩
          evaluationFunction := none
          scalingFunction := ⟨none, none⟩
          gamePhase := pos.game_phase } := by
  simp [computeEntry, hev, hsf, Entry.zero]

theorem toUInt8_of_valid (K : Consts) (hK : K.Valid) :
    toUInt8 K.SCALE_FACTOR_NORMAL = K.SCALE_FACTOR_NORMAL := by
  obtain ⟨-, h1, h2⟩ := hK
  unfold toUInt8
  omega

theorem toInt16_imbalanceQuot (pos : Position) (h : LegalMaterial pos) :
    toInt16 (imbalanceQuot (PieceCount pos)) = imbalanceQuot (PieceCount pos) := by
  obtain ⟨h1, h2⟩ := imbalanceQuot_bound pos h
  exact toInt16_of_range _ (by linarith) (by linarith)

/-! ## The Material Cache -/

/-- C5. For piece counts within the Xiangqi ranges, the value
`int16_t((imbalance<WHITE>(pc) - imbalance<BLACK>(pc)) / 16)` that
`Material::probe` computes on a miss is exactly negated when the count
vectors of White and Black are exchanged. -/
theorem imbalance_value_swap_negates (pos : Position) (h : LegalMaterial pos) :
    toInt16 (imbalanceQuot (PieceCount pos.swapCounts))
      = -toInt16 (imbalanceQuot (PieceCount pos)) := by
  rw [toInt16_imbalanceQuot pos.swapCounts h.swapCounts, toInt16_imbalanceQuot pos h,
    imbalanceQuot_swapCounts]

/-- Witness of C5 at `rookUpPosition`. -/
theorem imbalance_value_swap_negates_witness :
    LegalMaterial rookUpPosition
    ∧ toInt16 (imbalanceQuot (PieceCount rookUpPosition.swapCounts))
        = -toInt16 (imbalanceQuot (PieceCount rookUpPosition)) :=
  ⟨by decide, imbalance_value_swap_negates rookUpPosition (by decide)⟩

/-- C6. On a miss (the key stored in the slot differs from the material key)
with neither a specialised evaluator nor a scaling function registered for the
key, for a position with legal material the entry returned by
`Material::probe` has the material key, both factors `SCALE_FACTOR_NORMAL`,
the game phase of the position, both kinds of function pointer null and value
`(imbalance<WHITE>(PieceCount) - imbalance<BLACK>(PieceCount)) / 16` with
truncating division; nothing of the previous content of the slot is left. -/
theorem probe_miss_generic (K : Consts) (hK : K.Valid) (pos : Position)
    (hmiss : (pos.this_thread.materialTable (pos.this_thread.slot pos.material_key)).key
              ≠ pos.material_key)
    (hev : pos.this_thread.endgames.probeValue pos.material_key = none)
    (hsf : pos.this_thread.endgames.probeScaleFactor pos.material_key = none)
    (hlegal : LegalMaterial pos) :
    probeEntry K pos
      = { key := pos.material_key
          value := (imbalance Color.WHITE (PieceCount pos)
                      - imbalance Color.BLACK (PieceCount pos)).tdiv 16
          factor := ⟨K.SCALE_FACTOR_NORMAL, K.SCALE_FACTOR_NORMAL⟩
          evaluationFunction := none
          scalingFunction := ⟨none, none⟩
          gamePhase := pos.game_phase } := by
  rw [probeEntry_miss K pos hmiss, computeEntry_generic K pos hev hsf, toUInt8_of_valid K hK,
    toInt16_imbalanceQuot pos hlegal]
  rfl

/-- Witness of C6: the first probe of `rookUpPosition` on a fresh thread. -/
theorem probe_miss_generic_witness :
    stockfishConsts.Valid
    ∧ (rookUpPosition.this_thread.materialTable
          (rookUpPosition.this_thread.slot rookUpPosition.material_key)).key
        ≠ rookUpPosition.material_key
    ∧ rookUpPosition.this_thread.endgames.probeValue rookUpPosition.material_key = none
    ∧ rookUpPosition.this_thread.endgames.probeScaleFactor rookUpPosition.material_key = none
    ∧ LegalMaterial rookUpPosition
    ∧ probeEntry stockfishConsts rookUpPosition
      = { key := rookUpPosition.material_key
          value := (imbalance Color.WHITE (PieceCount rookUpPosition)
                      - imbalance Color.BLACK (PieceCount rookUpPosition)).tdiv 16
          factor := ⟨stockfishConsts.SCALE_FACTOR_NORMAL, stockfishConsts.SCALE_FACTOR_NORMAL⟩
          evaluationFunction := none
          scalingFunction := ⟨none, none⟩
          gamePhase := rookUpPosition.game_phase } :=
  ⟨by decide, by decide, rfl, rfl, by decide,
    probe_miss_generic stockfishConsts (by decide) rookUpPosition (by decide) rfl rfl
      (by decide)⟩

/-- C7. Probing a second time with the same material signature right after a
first probe returns the same slot and leaves the thread, hence the whole
material table and every field of the entry, as the first probe left it. -/
theorem probe_twice_same_entry (K : Consts) (pos pos2 : Position)
    (hkey : pos2.material_key = pos.material_key) :
    probe K (pos2.onThread (probe K pos).1) = ((probe K pos).1, (probe K pos).2) := by
  have hk : ((probe K pos).1.materialTable ((probe K pos).1.slot pos.material_key)).key
      = pos.material_key := by
    have := probeEntry_key K pos
    rwa [probeEntry, probe_slot, ← probe_thread_slot K pos] at this
  have h2 := probe_hit K (pos2.onThread (probe K pos).1)
    (by simpa [Position.onThread, hkey] using hk)
  rw [h2, probe_slot K pos]
  simp [Position.onThread, hkey, probe_thread_slot]

/-- Witness of C7: `rookUpPosition` probed twice, starting on a fresh thread. -/
theorem probe_twice_same_entry_witness :
    rookUpPosition.material_key = rookUpPosition.material_key
    ∧ probe stockfishConsts (rookUpPosition.onThread (probe stockfishConsts rookUpPosition).1)
        = ((probe stockfishConsts rookUpPosition).1, (probe stockfishConsts rookUpPosition).2) :=
  ⟨rfl, probe_twice_same_entry stockfishConsts rookUpPosition rookUpPosition rfl⟩

/-- C8. On hit, miss and collision alike, the entry returned by
`Material::probe` has its key equal to the material key of the position. -/
theorem probe_returns_entry_of_key (K : Consts) (pos : Position) :
    ((probe K pos).1.materialTable (probe K pos).2).key = pos.material_key :=
  probeEntry_key K pos

/-- C9, the code at the failing input.  On a freshly created table the slot of
key 0 already stores key 0, so the first probe of a position whose material
key is 0 is taken for a hit: the all-zero entry is returned, with both
factors 0 and game phase 0 (the position has game phase 128), and nothing is
computed. -/
theorem probe_zero_key_on_fresh_table (K : Consts) :
    probeEntry K zeroKeyPosition = Entry.zero
    ∧ (probeEntry K zeroKeyPosition).factor = ⟨0, 0⟩
    ∧ (probeEntry K zeroKeyPosition).gamePhase = 0
    ∧ zeroKeyPosition.game_phase = 128
    ∧ zeroKeyPosition.this_thread.endgames.probeValue zeroKeyPosition.material_key = none
    ∧ zeroKeyPosition.this_thread.endgames.probeScaleFactor zeroKeyPosition.material_key
        = none :=
  ⟨rfl, rfl, rfl, rfl, rfl, rfl⟩

/-- C10. On a miss for a key with a specialised evaluator `f` registered,
`Material::probe` stores `f` in the entry and returns with value 0 and both
scaling-function slots null, whatever the piece counts and the answer of the
scaling-function registry are. -/
theorem probe_miss_evaluator_supersedes (K : Consts) (pos : Position) (f : EndgameBase)
    (hmiss : (pos.this_thread.materialTable (pos.this_thread.slot pos.material_key)).key
              ≠ pos.material_key)
    (hev : pos.this_thread.endgames.probeValue pos.material_key = some f) :
    (probeEntry K pos).evaluationFunction = some f
    ∧ (probeEntry K pos).value = 0
    ∧ (probeEntry K pos).scalingFunction = ⟨none, none⟩ := by
  rw [probeEntry_miss K pos hmiss]
  simp [computeEntry, hev, Entry.zero]

/-- Witness of C10: `rookUpPosition` on a thread whose registry has both an
evaluator and a scaling function for its key. -/
theorem probe_miss_evaluator_supersedes_witness :
    ((rookUpPosition.onThread registryThread).this_thread.materialTable
        ((rookUpPosition.onThread registryThread).this_thread.slot
          (rookUpPosition.onThread registryThread).material_key)).key
      ≠ (rookUpPosition.onThread registryThread).material_key
    ∧ (rookUpPosition.onThread registryThread).this_thread.endgames.probeValue
        (rookUpPosition.onThread registryThread).material_key = some ⟨1, Color.WHITE⟩
    ∧ (rookUpPosition.onThread registryThread).this_thread.endgames.probeScaleFactor
        (rookUpPosition.onThread registryThread).material_key = some ⟨2, Color.BLACK⟩
    ∧ (probeEntry stockfishConsts (rookUpPosition.onThread registryThread)).evaluationFunction
        = some ⟨1, Color.WHITE⟩
    ∧ (probeEntry stockfishConsts (rookUpPosition.onThread registryThread)).value = 0
    ∧ (probeEntry stockfishConsts (rookUpPosition.onThread registryThread)).scalingFunction
        = ⟨none, none⟩ :=
  ⟨by decide, rfl, rfl,
    probe_miss_evaluator_supersedes stockfishConsts (rookUpPosition.onThread registryThread)
      ⟨1, Color.WHITE⟩ (by decide) rfl⟩

/-- C11. On a miss for a key with no specialised evaluator and a registered
scaling function `sf`, `Material::probe` stores `sf` in
`scalingFunction[sf.strong_side()]` only: the other side's slot and
`evaluationFunction` are null, `value` is 0 (no imbalance is computed) and
both scale factors are `SCALE_FACTOR_NORMAL`. -/
theorem probe_miss_scaling_function (K : Consts) (hK : K.Valid) (pos : Position)
    (sf : EndgameBase)
    (hmiss : (pos.this_thread.materialTable (pos.this_thread.slot pos.material_key)).key
              ≠ pos.material_key)
    (hev : pos.this_thread.endgames.probeValue pos.material_key = none)
    (hsf : pos.this_thread.endgames.probeScaleFactor pos.material_key = some sf) :
    (probeEntry K pos).scalingFunction.get sf.strong_side = some sf
    ∧ (probeEntry K pos).scalingFunction.get sf.strong_side.them = none
    ∧ (probeEntry K pos).evaluationFunction = none
    ∧ (probeEntry K pos).value = 0
    ∧ (probeEntry K pos).factor = ⟨K.SCALE_FACTOR_NORMAL, K.SCALE_FACTOR_NORMAL⟩ := by
  rw [probeEntry_miss K pos hmiss]
  have hf := toUInt8_of_valid K hK
  cases hs : sf.strong_side <;>
    simp [computeEntry, hev, hsf, Entry.zero, hs, PerColor.set, PerColor.get, Color.them, hf]

/-- Witness of C11: `rookUpPosition` on a thread whose registry has a scaling
function (strong side Black) and no evaluator for its key. -/
theorem probe_miss_scaling_function_witness :
    stockfishConsts.Valid
    ∧ ((rookUpPosition.onThread scalingThread).this_thread.materialTable
        ((rookUpPosition.onThread scalingThread).this_thread.slot
          (rookUpPosition.onThread scalingThread).material_key)).key
      ≠ (rookUpPosition.onThread scalingThread).material_key
    ∧ (rookUpPosition.onThread scalingThread).this_thread.endgames.probeValue
        (rookUpPosition.onThread scalingThread).material_key = none
    ∧ (rookUpPosition.onThread scalingThread).this_thread.endgames.probeScaleFactor
        (rookUpPosition.onThread scalingThread).material_key = some ⟨2, Color.BLACK⟩
    ∧ (probeEntry stockfishConsts (rookUpPosition.onThread scalingThread)).scalingFunction.get
        (EndgameBase.strong_side ⟨2, Color.BLACK⟩) = some ⟨2, Color.BLACK⟩
    ∧ (probeEntry stockfishConsts (rookUpPosition.onThread scalingThread)).scalingFunction.get
        (EndgameBase.strong_side ⟨2, Color.BLACK⟩).them = none
    ∧ (probeEntry stockfishConsts (rookUpPosition.onThread scalingThread)).evaluationFunction
        = none
    ∧ (probeEntry stockfishConsts (rookUpPosition.onThread scalingThread)).value = 0
    ∧ (probeEntry stockfishConsts (rookUpPosition.onThread scalingThread)).factor
        = ⟨stockfishConsts.SCALE_FACTOR_NORMAL, stockfishConsts.SCALE_FACTOR_NORMAL⟩ :=
  ⟨by decide, by decide, rfl, rfl,
    probe_miss_scaling_function stockfishConsts (by decide)
      (rookUpPosition.onThread scalingThread) ⟨2, Color.BLACK⟩ (by decide) rfl rfl⟩

/-! ## The imbalance polynomial as specified -/

/-- Leaving out the summands whose count is zero does not change the sum. -/
theorem sum_filter_count_ne_zero (f g : Nat → Int) (L : List Nat) :
    ((L.filter (fun i => f i ≠ 0)).map (fun i => f i * g i)).sum
      = (L.map (fun i => f i * g i)).sum := by
  induction L with
  | nil => rfl
  | cons a L ih =>
    simp only [ne_eq, decide_not] at ih
    by_cases h : f a = 0
    · simp [List.filter_cons, h, ih]
    · simp [List.filter_cons, h, ih]

/-- C15. For every colour and every table of piece counts, `imbalance<Us>`
equals the polynomial of the specification, in which the cross terms with the
opponent's pieces run over every piece type in pair..rook: the entries of
`QuadraticTheirs` above the diagonal, which the loop of the code never reads,
are all zero. -/
theorem imbalance_eq_imbalanceSpec (Us : Color) (pieceCount : Color → List Int) :
    imbalance Us pieceCount = imbalanceSpec Us pieceCount := by
  unfold imbalanceSpec
  rw [sum_filter_count_ne_zero (fun pt1 => (pieceCount Us).getD pt1 0)]
  simp only [imbalance, imbalanceInner, skip_zero_count, PieceType.idx]
  simp [List.range, List.range.loop, tableAt, QuadraticOurs, QuadraticTheirs, Linear]
  ring

/-! ## Lemmas on `PSQT::init` -/

theorem initSquare_apply (B : Board) (v : Score) (pt : Nat)
    (psq : Color → Nat → Nat → Score) (s : Nat) (c : Color) (pt1 s1 : Nat) :
    PSQT.initSquare B v pt psq s c pt1 s1
      = if c = Color.BLACK ∧ pt1 = pt ∧ s1 = B.mirror s then -PSQT.whiteEntry B v pt s
        else if c = Color.WHITE ∧ pt1 = pt ∧ s1 = s then PSQT.whiteEntry B v pt s
        else psq c pt1 s1 := rfl

/-- The inner loop for the piece type `pt` leaves the other rows alone. -/
theorem initSquares_other_row (B : Board) (v : Score) (pt : Nat) (L : List Nat)
    (psq : Color → Nat → Nat → Score) (c : Color) (pt1 s1 : Nat) (h : pt1 ≠ pt) :
    L.foldl (PSQT.initSquare B v pt) psq c pt1 s1 = psq c pt1 s1 := by
  induction L generalizing psq with
  | nil => rfl
  | cons a L ih =>
    rw [List.foldl_cons, ih, initSquare_apply]
    simp [h]

/-- The white cells after the inner loop. -/
theorem initSquares_white (B : Board) (v : Score) (pt : Nat) (L : List Nat)
    (psq : Color → Nat → Nat → Score) (s1 : Nat) :
    L.foldl (PSQT.initSquare B v pt) psq Color.WHITE pt s1
      = if s1 ∈ L then PSQT.whiteEntry B v pt s1 else psq Color.WHITE pt s1 := by
  induction L generalizing psq with
  | nil => simp
  | cons a L ih =>
    rw [List.foldl_cons, ih, initSquare_apply]
    by_cases h1 : s1 ∈ L
    · simp [h1]
    · by_cases h2 : s1 = a
      · subst h2
        simp [h1]
      · simp [h1, h2]

/-- A black cell that is the mirror of no square of the list is left alone. -/
theorem initSquares_black_untouched (B : Board) (v : Score) (pt : Nat) (L : List Nat)
    (psq : Color → Nat → Nat → Score) (j : Nat) (h : ∀ b, b ∈ L → B.mirror b ≠ j) :
    L.foldl (PSQT.initSquare B v pt) psq Color.BLACK pt j = psq Color.BLACK pt j := by
  induction L generalizing psq with
  | nil => rfl
  | cons a L ih =>
    rw [List.foldl_cons, ih _ (fun b hb => h b (List.mem_cons_of_mem a hb)), initSquare_apply]
    have := h a (List.mem_cons_self a L)
    simp [Ne.symm this]

/-- The black cells after the inner loop, for a mirror that is injective on
the squares of the list. -/
theorem initSquares_black (B : Board) (v : Score) (pt : Nat) (L : List Nat)
    (psq : Color → Nat → Nat → Score)
    (hinj : ∀ a, a ∈ L → ∀ b, b ∈ L → B.mirror a = B.mirror b → a = b)
    (s : Nat) (hs : s ∈ L) :
    L.foldl (PSQT.initSquare B v pt) psq Color.BLACK pt (B.mirror s)
      = -PSQT.whiteEntry B v pt s := by
  induction L generalizing psq with
  | nil => simp at hs
  | cons a L ih =>
    rw [List.foldl_cons]
    by_cases h1 : s ∈ L
    · exact ih _ (fun x hx y hy => hinj x (List.mem_cons_of_mem a hx) y
        (List.mem_cons_of_mem a hy)) h1
    · have hsa : s = a := by
        rcases List.mem_cons.1 hs with h | h
        · exact h
        · exact absurd h h1
      subst hsa
      rw [initSquares_black_untouched, initSquare_apply]
      · simp
      · intro b hb hm
        have := hinj b (List.mem_cons_of_mem s hb) s (List.mem_cons_self s L) hm
        exact h1 (this ▸ hb)

theorem initPiece_psq (B : Board) (g : Globals) (p : Nat) :
    (PSQT.initPiece B g p).psq
      = (List.range SQUARE_COUNT).foldl
          (PSQT.initSquare B
            (make_score (g.PieceValue Phase.MG p) (g.PieceValue Phase.EG p)) p) g.psq := by
  simp [PSQT.initPiece, setPieceValue]

theorem initPiece_PieceValue (B : Board) (g : Globals) (p : Nat) (ph : Phase) (i : Nat) :
    (PSQT.initPiece B g p).PieceValue ph i
      = if i = B.make_piece Color.BLACK p then g.PieceValue ph p else g.PieceValue ph i := by
  cases ph <;> by_cases h : i = B.make_piece Color.BLACK p <;>
    simp [PSQT.initPiece, setPieceValue, h]

theorem initPiece_KingDanger (B : Board) (g : Globals) (p : Nat) :
    (PSQT.initPiece B g p).KingDanger = g.KingDanger := rfl

/-- One turn of the outer loop leaves the rows of the other piece types alone. -/
theorem initPiece_other_row (B : Board) (g : Globals) (p : Nat) (c : Color) (pt s : Nat)
    (h : pt ≠ p) : (PSQT.initPiece B g p).psq c pt s = g.psq c pt s := by
  rw [initPiece_psq, initSquares_other_row _ _ _ _ _ _ _ _ h]

/-- The outer loop leaves the rows of the piece types it does not visit alone. -/
theorem initPieces_other_row (B : Board) (P : List Nat) (g : Globals) (c : Color)
    (pt s : Nat) (h : pt ∉ P) : (P.foldl (PSQT.initPiece B) g).psq c pt s = g.psq c pt s := by
  induction P generalizing g with
  | nil => rfl
  | cons p P ih =>
    rw [List.foldl_cons, ih _ (fun hp => h (List.mem_cons_of_mem p hp)),
      initPiece_other_row _ _ _ _ _ _ (fun hp => h (by rw [hp]; exact List.mem_cons_self p P))]

theorem initPieces_KingDanger (B : Board) (P : List Nat) (g : Globals) :
    (P.foldl (PSQT.initPiece B) g).KingDanger = g.KingDanger := by
  induction P generalizing g with
  | nil => rfl
  | cons p P ih => rw [List.foldl_cons, ih, initPiece_KingDanger]

/-- With the black codes apart, the outer loop does not change the values of
`PieceValue` at the codes `PAWN..KING`. -/
theorem initPieces_PieceValue_white (B : Board) (hB : B.BlackCodesApart) (P : List Nat)
    (hP : ∀ p, p ∈ P → p ∈ pieceTypes) (g : Globals) (ph : Phase) (i : Nat)
    (hi : i ∈ pieceTypes) :
    (P.foldl (PSQT.initPiece B) g).PieceValue ph i = g.PieceValue ph i := by
  induction P generalizing g with
  | nil => rfl
  | cons p P ih =>
    rw [List.foldl_cons, ih (fun q hq => hP q (List.mem_cons_of_mem p hq)),
      initPiece_PieceValue, if_neg]
    intro h
    exact hB p (hP p (List.mem_cons_self p P)) (h ▸ hi)

theorem mirror_injective_on_squares (B : Board) (hB : B.MirrorInvolution) :
    ∀ a, a ∈ List.range SQUARE_COUNT → ∀ b, b ∈ List.range SQUARE_COUNT →
      B.mirror a = B.mirror b → a = b := by
  intro a ha b hb h
  rw [← (hB a (List.mem_range.1 ha)).2, ← (hB b (List.mem_range.1 hb)).2, h]

/-- The mirroring relation on the row of the piece type `pt`. -/
theorem initPiece_mirrors_row (B : Board) (hB : B.MirrorInvolution) (g : Globals) (p : Nat)
    (s : Nat) (hs : s < SQUARE_COUNT) :
    (PSQT.initPiece B g p).psq Color.BLACK p (B.mirror s)
      = -(PSQT.initPiece B g p).psq Color.WHITE p s := by
  rw [initPiece_psq, initSquares_white, if_pos (List.mem_range.2 hs),
    initSquares_black _ _ _ _ _ (mirror_injective_on_squares B hB) s (List.mem_range.2 hs)]

/-- The outer loop establishes the mirroring relation on the rows it visits and
keeps it on the rows where it held before. -/
theorem initPieces_mirrors_row (B : Board) (hB : B.MirrorInvolution) (P : List Nat)
    (g : Globals) (pt : Nat)
    (h : pt ∈ P ∨ ∀ s, s < SQUARE_COUNT →
        g.psq Color.BLACK pt (B.mirror s) = -g.psq Color.WHITE pt s)
    (s : Nat) (hs : s < SQUARE_COUNT) :
    (P.foldl (PSQT.initPiece B) g).psq Color.BLACK pt (B.mirror s)
      = -(P.foldl (PSQT.initPiece B) g).psq Color.WHITE pt s := by
  induction P generalizing g with
  | nil =>
    rcases h with h | h
    · simp at h
    · exact h s hs
  | cons p P ih =>
    rw [List.foldl_cons]
    apply ih
    by_cases hp : pt ∈ P
    · exact Or.inl hp
    · right
      intro s1 hs1
      by_cases hpp : pt = p
      · subst hpp
        exact initPiece_mirrors_row B hB g pt s1 hs1
      · rw [initPiece_other_row _ _ _ _ _ _ hpp, initPiece_other_row _ _ _ _ _ _ hpp]
        rcases h with h | h
        · rcases List.mem_cons.1 h with h | h
          · exact absurd h hpp
          · exact absurd h hp
        · exact h s1 hs1

/-- The white cells after the outer loop over a list of distinct piece types
among `PAWN..KING`. -/
theorem initPieces_white (B : Board) (hB : B.BlackCodesApart) (P : List Nat)
    (hP : ∀ p, p ∈ P → p ∈ pieceTypes) (g : Globals) (pt : Nat) (hpt : pt ∈ P)
    (s : Nat) (hs : s < SQUARE_COUNT) :
    (P.foldl (PSQT.initPiece B) g).psq Color.WHITE pt s
      = PSQT.whiteEntry B
          (make_score (g.PieceValue Phase.MG pt) (g.PieceValue Phase.EG pt)) pt s := by
  induction P generalizing g with
  | nil => simp at hpt
  | cons p P ih =>
    rw [List.foldl_cons]
    have hP1 : ∀ q, q ∈ P → q ∈ pieceTypes := fun q hq => hP q (List.mem_cons_of_mem p hq)
    have hpt1 : pt ∈ pieceTypes := hP pt hpt
    by_cases h1 : pt ∈ P
    · rw [ih hP1 _ h1, initPiece_PieceValue, initPiece_PieceValue, if_neg, if_neg]
      · intro h
        exact hB p (hP p (List.mem_cons_self p P)) (h ▸ hpt1)
      · intro h
        exact hB p (hP p (List.mem_cons_self p P)) (h ▸ hpt1)
    · have hpp : pt = p := by
        rcases List.mem_cons.1 hpt with h | h
        · exact h
        · exact absurd h h1
      subst hpp
      rw [initPieces_other_row _ _ _ _ _ _ h1, initPiece_psq, initSquares_white,
        if_pos (List.mem_range.2 hs)]

theorem mem_pieceTypes (pt : Nat) : pt ∈ pieceTypes ↔ 1 ≤ pt ∧ pt ≤ 7 := by
  simp only [pieceTypes, PieceType.idx, List.mem_range']
  constructor
  · rintro ⟨i, hi, rfl⟩
    omega
  · rintro ⟨h1, h2⟩
    exact ⟨pt - 1, by omega, by omega⟩

theorem pieceTypes_subset : ∀ p, p ∈ pieceTypes → p ∈ pieceTypes := fun _ h => h

theorem getD_replicate_self {α : Type} (n i : Nat) (a : α) :
    (List.replicate n a).getD i a = a := by
  induction n generalizing i with
  | zero => rfl
  | succ n ih =>
    cases i with
    | zero => rfl
    | succ i => simp [List.replicate_succ]

theorem getD_replicate_cases {α : Type} (n i : Nat) (a d : α) :
    (List.replicate n a).getD i d = a ∨ (List.replicate n a).getD i d = d := by
  induction n generalizing i with
  | zero => exact Or.inr rfl
  | succ n ih =>
    cases i with
    | zero => exact Or.inl rfl
    | succ i => simpa [List.replicate_succ] using ih i

theorem zeroTemplate_at (r e : Nat) :
    (zeroTemplate.getD r []).getD e SCORE_ZERO = SCORE_ZERO := by
  rcases getD_replicate_cases 10 r (List.replicate 5 (make_score 0 0)) [] with h | h
  · rw [zeroTemplate, h]
    exact getD_replicate_self 5 e (make_score 0 0)
  · rw [zeroTemplate, h]
    rfl

/-- Every entry of the template `PSQT::Bonus` is `S(0,0)`. -/
theorem bonusAt_zero (pt r e : Nat) : bonusAt pt r e = SCORE_ZERO := by
  unfold bonusAt Bonus
  match pt with
  | 0 => rfl
  | 1 => exact zeroTemplate_at r e
  | 2 => exact zeroTemplate_at r e
  | 3 => exact zeroTemplate_at r e
  | 4 => exact zeroTemplate_at r e
  | 5 => exact zeroTemplate_at r e
  | 6 => exact zeroTemplate_at r e
  | 7 => exact zeroTemplate_at r e
  | n + 8 => rfl

/-- On the files A..I the local `edgeDistance` is the distance to the nearer
edge file, `min(file, FILE_I - file)`. -/
theorem edgeDistance_eq_min (B : Board) (s : Nat) (h : B.file_of s ≤ FILE_I) :
    (edgeDistance B s).toNat = min (B.file_of s) (FILE_I - B.file_of s) := by
  unfold edgeDistance
  unfold FILE_I at *
  unfold FILE_E
  split <;> omega

theorem mg_value_add (a b : Score) : mg_value (a + b) = mg_value a + mg_value b := rfl

theorem xiangqiBoard_mirror : xiangqiBoard.MirrorInvolution := by
  intro s hs
  simp only [xiangqiBoard, SQUARE_COUNT] at *
  omega

theorem xiangqiBoard_codes : xiangqiBoard.BlackCodesApart := by
  intro pt hpt h
  rw [mem_pieceTypes] at hpt h
  simp [xiangqiBoard] at h
  omega

theorem xiangqiBoard_files : xiangqiBoard.FilesInRange := by
  intro s _
  simp only [xiangqiBoard, FILE_I]
  omega

/-! ## The piece-square tables -/

/-- C12. After `PSQT::init` on the zero-initialised table `psq`, for a square
operator `~` that is an involution on the 90 squares, every row `pt` (the
rows `PAWN..KING` and the unused ones, `NO_PIECE_TYPE` among them) and every
square `s` satisfy `psq[BLACK][pt][~s] == -psq[WHITE][pt][s]`. -/
theorem psqt_mirroring_invariant (B : Board) (hB : B.MirrorInvolution) (g : Globals)
    (hzero : ∀ c pt s, g.psq c pt s = SCORE_ZERO) (pt s : Nat) (hs : s < SQUARE_COUNT) :
    (PSQT.init B g).psq Color.BLACK pt (B.mirror s)
      = -(PSQT.init B g).psq Color.WHITE pt s := by
  apply initPieces_mirrors_row B hB pieceTypes g pt _ s hs
  right
  intro s1 _
  rw [hzero, hzero]
  rfl

/-- Witness of C12: the rook on square 3 of the usual board. -/
theorem psqt_mirroring_invariant_witness :
    xiangqiBoard.MirrorInvolution
    ∧ (∀ c pt s, startGlobals.psq c pt s = SCORE_ZERO)
    ∧ 3 < SQUARE_COUNT
    ∧ (PSQT.init xiangqiBoard startGlobals).psq Color.BLACK 6 (xiangqiBoard.mirror 3)
        = -(PSQT.init xiangqiBoard startGlobals).psq Color.WHITE 6 3 :=
  ⟨xiangqiBoard_mirror, fun _ _ _ => rfl, by decide,
    psqt_mirroring_invariant xiangqiBoard xiangqiBoard_mirror startGlobals
      (fun _ _ _ => rfl) 6 3 (by decide)⟩

/-- C13. After `PSQT::init`, with the black piece codes apart from
`PAWN..KING` and the squares on the files A..I, for every piece type `pt` in
`PAWN..KING` and every square `s`, `psq[WHITE][pt][s]` is
`make_score(PieceValue[MG][pt], PieceValue[EG][pt])
  + Bonus[pt][rank_of(s)][min(file_of(s), FILE_I - file_of(s))]`;
hence two squares of the same rank on the files `f` and `8 - f` have equal
white scores. -/
theorem psqt_white_half (B : Board) (hF : B.FilesInRange) (hC : B.BlackCodesApart)
    (g : Globals) (pt : Nat) (hpt : pt ∈ pieceTypes) :
    (∀ s, s < SQUARE_COUNT →
      (PSQT.init B g).psq Color.WHITE pt s
        = make_score ((PSQT.init B g).PieceValue Phase.MG pt)
            ((PSQT.init B g).PieceValue Phase.EG pt)
          + bonusAt pt (B.rank_of s) (min (B.file_of s) (FILE_I - B.file_of s)))
    ∧ (∀ s t, s < SQUARE_COUNT → t < SQUARE_COUNT → B.rank_of t = B.rank_of s →
        B.file_of t = FILE_I - B.file_of s →
        (PSQT.init B g).psq Color.WHITE pt t = (PSQT.init B g).psq Color.WHITE pt s) := by
  have key : ∀ s, s < SQUARE_COUNT →
      (PSQT.init B g).psq Color.WHITE pt s
        = make_score ((PSQT.init B g).PieceValue Phase.MG pt)
            ((PSQT.init B g).PieceValue Phase.EG pt)
          + bonusAt pt (B.rank_of s) (min (B.file_of s) (FILE_I - B.file_of s)) := by
    intro s hs
    unfold PSQT.init
    rw [initPieces_white B hC pieceTypes pieceTypes_subset g pt hpt s hs,
      initPieces_PieceValue_white B hC pieceTypes pieceTypes_subset g _ pt hpt,
      initPieces_PieceValue_white B hC pieceTypes pieceTypes_subset g _ pt hpt,
      PSQT.whiteEntry, edgeDistance_eq_min B s (hF s hs)]
  refine ⟨key, ?_⟩
  intro s t hs ht hr hf
  have hfs := hF s hs
  rw [key s hs, key t ht, hr, hf]
  congr 2
  unfold FILE_I at *
  omega

/-- Witness of C13: the rook row of the usual board. -/
theorem psqt_white_half_witness :
    xiangqiBoard.FilesInRange ∧ xiangqiBoard.BlackCodesApart ∧ 6 ∈ pieceTypes
    ∧ (∀ s, s < SQUARE_COUNT →
      (PSQT.init xiangqiBoard startGlobals).psq Color.WHITE 6 s
        = make_score ((PSQT.init xiangqiBoard startGlobals).PieceValue Phase.MG 6)
            ((PSQT.init xiangqiBoard startGlobals).PieceValue Phase.EG 6)
          + bonusAt 6 (xiangqiBoard.rank_of s)
              (min (xiangqiBoard.file_of s) (FILE_I - xiangqiBoard.file_of s)))
    ∧ (∀ s t, s < SQUARE_COUNT → t < SQUARE_COUNT →
        xiangqiBoard.rank_of t = xiangqiBoard.rank_of s →
        xiangqiBoard.file_of t = FILE_I - xiangqiBoard.file_of s →
        (PSQT.init xiangqiBoard startGlobals).psq Color.WHITE 6 t
          = (PSQT.init xiangqiBoard startGlobals).psq Color.WHITE 6 s) :=
  ⟨xiangqiBoard_files, xiangqiBoard_codes, by decide,
    psqt_white_half xiangqiBoard xiangqiBoard_files xiangqiBoard_codes startGlobals 6
      (by decide)⟩

/-! ## `PSQT::init` run twice -/

/-- A cell is either left alone by the inner loop or receives a value that
does not depend on the table the loop started from. -/
theorem initSquares_determined (B : Board) (v : Score) (pt : Nat) (L : List Nat)
    (psq1 psq2 : Color → Nat → Nat → Score) (c : Color) (pt1 s1 : Nat) :
    (L.foldl (PSQT.initSquare B v pt) psq1 c pt1 s1 = psq1 c pt1 s1
      ∧ L.foldl (PSQT.initSquare B v pt) psq2 c pt1 s1 = psq2 c pt1 s1)
    ∨ L.foldl (PSQT.initSquare B v pt) psq1 c pt1 s1
        = L.foldl (PSQT.initSquare B v pt) psq2 c pt1 s1 := by
  induction L generalizing psq1 psq2 with
  | nil => exact Or.inl ⟨rfl, rfl⟩
  | cons a L ih =>
    rw [List.foldl_cons, List.foldl_cons]
    rcases ih (PSQT.initSquare B v pt psq1 a) (PSQT.initSquare B v pt psq2 a) with h | h
    · rw [h.1, h.2, initSquare_apply, initSquare_apply]
      by_cases hb : c = Color.BLACK ∧ pt1 = pt ∧ s1 = B.mirror a
      · right
        rw [if_pos hb, if_pos hb]
      · by_cases hw : c = Color.WHITE ∧ pt1 = pt ∧ s1 = a
        · right
          rw [if_neg hb, if_neg hb, if_pos hw, if_pos hw]
        · left
          rw [if_neg hb, if_neg hb, if_neg hw, if_neg hw]
          exact ⟨rfl, rfl⟩
    · exact Or.inr h

/-- The same for the whole of `PSQT::init` on two states whose `PieceValue`
agree at the codes `PAWN..KING`: every cell of `psq` and of `PieceValue` is
either left alone in both runs or ends with the same value in both. -/
theorem initPieces_determined (B : Board) (hB : B.BlackCodesApart) (P : List Nat)
    (hP : ∀ p, p ∈ P → p ∈ pieceTypes) (g1 g2 : Globals)
    (hag : ∀ ph i, i ∈ pieceTypes → g1.PieceValue ph i = g2.PieceValue ph i) :
    (∀ c pt s,
      ((P.foldl (PSQT.initPiece B) g1).psq c pt s = g1.psq c pt s
        ∧ (P.foldl (PSQT.initPiece B) g2).psq c pt s = g2.psq c pt s)
      ∨ (P.foldl (PSQT.initPiece B) g1).psq c pt s
          = (P.foldl (PSQT.initPiece B) g2).psq c pt s)
    ∧ (∀ ph i,
      ((P.foldl (PSQT.initPiece B) g1).PieceValue ph i = g1.PieceValue ph i
        ∧ (P.foldl (PSQT.initPiece B) g2).PieceValue ph i = g2.PieceValue ph i)
      ∨ (P.foldl (PSQT.initPiece B) g1).PieceValue ph i
          = (P.foldl (PSQT.initPiece B) g2).PieceValue ph i) := by
  induction P generalizing g1 g2 with
  | nil => exact ⟨fun _ _ _ => Or.inl ⟨rfl, rfl⟩, fun _ _ => Or.inl ⟨rfl, rfl⟩⟩
  | cons p P ih =>
    have hp : p ∈ pieceTypes := hP p (List.mem_cons_self p P)
    have hag1 : ∀ ph i, i ∈ pieceTypes →
        (PSQT.initPiece B g1 p).PieceValue ph i = (PSQT.initPiece B g2 p).PieceValue ph i := by
      intro ph i hi
      have hne : i ≠ B.make_piece Color.BLACK p := fun h => hB p hp (h ▸ hi)
      rw [initPiece_PieceValue, initPiece_PieceValue, if_neg hne, if_neg hne]
      exact hag ph i hi
    obtain ⟨ih1, ih2⟩ := ih (fun q hq => hP q (List.mem_cons_of_mem p hq))
      (PSQT.initPiece B g1 p) (PSQT.initPiece B g2 p) hag1
    constructor
    · intro c pt s
      rw [List.foldl_cons, List.foldl_cons]
      rcases ih1 c pt s with h | h
      · rw [h.1, h.2, initPiece_psq, initPiece_psq, hag Phase.MG p hp, hag Phase.EG p hp]
        exact initSquares_determined B _ p _ g1.psq g2.psq c pt s
      · exact Or.inr h
    · intro ph i
      rw [List.foldl_cons, List.foldl_cons]
      rcases ih2 ph i with h | h
      · rw [h.1, h.2, initPiece_PieceValue, initPiece_PieceValue]
        by_cases hi : i = B.make_piece Color.BLACK p
        · right
          rw [if_pos hi, if_pos hi]
          exact hag ph p hp
        · left
          rw [if_neg hi, if_neg hi]
          exact ⟨rfl, rfl⟩
      · exact Or.inr h

theorem Globals.eq_of_fields (g1 g2 : Globals) (h1 : g1.psq = g2.psq)
    (h2 : g1.PieceValue = g2.PieceValue) (h3 : g1.KingDanger = g2.KingDanger) : g1 = g2 := by
  cases g1
  cases g2
  simp only [Globals.mk.injEq]
  exact ⟨h1, h2, h3⟩

/-- C14. `PSQT::init` is idempotent: whatever `psq` and `PieceValue` hold
before, and with the codes of the black pieces apart from `PAWN..KING`,
running it twice leaves all global tables exactly as running it once. -/
theorem psqt_init_idempotent (B : Board) (hB : B.BlackCodesApart) (g : Globals) :
    PSQT.init B (PSQT.init B g) = PSQT.init B g := by
  obtain ⟨h1, h2⟩ := initPieces_determined B hB pieceTypes pieceTypes_subset
    (PSQT.init B g) g
    (fun ph i hi => initPieces_PieceValue_white B hB pieceTypes pieceTypes_subset g ph i hi)
  apply Globals.eq_of_fields
  · funext c pt s
    rcases h1 c pt s with h | h
    · exact h.1
    · exact h
  · funext ph i
    rcases h2 ph i with h | h
    · exact h.1
    · exact h
  · unfold PSQT.init
    rw [initPieces_KingDanger]

/-- Witness of C14 on the usual board, from the zero-initialised tables. -/
theorem psqt_init_idempotent_witness :
    xiangqiBoard.BlackCodesApart
    ∧ PSQT.init xiangqiBoard (PSQT.init xiangqiBoard startGlobals)
        = PSQT.init xiangqiBoard startGlobals :=
  ⟨xiangqiBoard_codes, psqt_init_idempotent xiangqiBoard xiangqiBoard_codes startGlobals⟩

/-! ## End-to-end properties of the evaluator -/

/-- C16. Let `p` and `q` be positions not in check with the same side to move,
`q` being `p` with one more white rook on the square `s`, so that
`psq_score(q) == psq_score(p) + psq[WHITE][ROOK][s]` for the table built by
`PSQT::init`.  With White to move `evaluate(q) - evaluate(p)` is at least (in
fact equal to) `PieceValue[MG][ROOK]`; with Black to move the difference is
the same amount with the opposite sign. -/
theorem evaluate_extra_white_rook (K : Consts) (hK : K.Valid) (B : Board)
    (hC : B.BlackCodesApart) (g : Globals) (p q : Position) (s : Nat)
    (hs : s < SQUARE_COUNT) (hp : p.checkers = false) (hq : q.checkers = false)
    (hstm : q.side_to_move = p.side_to_move)
    (hpsq : q.psq_score
              = p.psq_score + (PSQT.init B g).psq Color.WHITE PieceType.ROOK.idx s) :
    ∃ a b : Int,
      evaluate K p = some a ∧ evaluate K q = some b
      ∧ (p.side_to_move = Color.WHITE →
          (PSQT.init B g).PieceValue Phase.MG PieceType.ROOK.idx ≤ b - a
          ∧ b - a = (PSQT.init B g).PieceValue Phase.MG PieceType.ROOK.idx)
      ∧ (p.side_to_move = Color.BLACK →
          b - a = -(PSQT.init B g).PieceValue Phase.MG PieceType.ROOK.idx) := by
  have hpm : K.PHASE_MIDGAME ≠ 0 := ne_of_gt hK.1
  have hrook : PieceType.ROOK.idx ∈ pieceTypes := by decide
  have hcell : mg_value ((PSQT.init B g).psq Color.WHITE PieceType.ROOK.idx s)
      = (PSQT.init B g).PieceValue Phase.MG PieceType.ROOK.idx := by
    unfold PSQT.init
    rw [initPieces_white B hC pieceTypes pieceTypes_subset g _ hrook s hs,
      initPieces_PieceValue_white B hC pieceTypes pieceTypes_subset g _ _ hrook,
      PSQT.whiteEntry, bonusAt_zero, mg_value_add]
    simp [mg_value, make_score, SCORE_ZERO]
  refine ⟨_, _, evaluate_quiet K p hp, evaluate_quiet K q hq, ?_, ?_⟩
  · intro hw
    rw [hstm, if_pos hw, if_pos hw, whiteValue_eq_mg K hpm, whiteValue_eq_mg K hpm, hpsq,
      mg_value_add, hcell]
    constructor
    · linarith
    · ring
  · intro hb
    have hnw : p.side_to_move ≠ Color.WHITE := by
      rw [hb]
      decide
    rw [hstm, if_neg hnw, if_neg hnw, whiteValue_eq_mg K hpm, whiteValue_eq_mg K hpm, hpsq,
      mg_value_add, hcell]
    ring

/-- Witness of C16: a second white rook on square 40 in `rookUpPosition`. -/
theorem evaluate_extra_white_rook_witness :
    stockfishConsts.Valid ∧ xiangqiBoard.BlackCodesApart ∧ 40 < SQUARE_COUNT
    ∧ rookUpPosition.checkers = false ∧ (rookAdded 40).checkers = false
    ∧ (rookAdded 40).side_to_move = rookUpPosition.side_to_move
    ∧ (rookAdded 40).psq_score
        = rookUpPosition.psq_score
          + (PSQT.init xiangqiBoard startGlobals).psq Color.WHITE PieceType.ROOK.idx 40
    ∧ ∃ a b : Int,
      evaluate stockfishConsts rookUpPosition = some a
      ∧ evaluate stockfishConsts (rookAdded 40) = some b
      ∧ (rookUpPosition.side_to_move = Color.WHITE →
          (PSQT.init xiangqiBoard startGlobals).PieceValue Phase.MG PieceType.ROOK.idx ≤ b - a
          ∧ b - a = (PSQT.init xiangqiBoard startGlobals).PieceValue Phase.MG
                      PieceType.ROOK.idx)
      ∧ (rookUpPosition.side_to_move = Color.BLACK →
          b - a = -(PSQT.init xiangqiBoard startGlobals).PieceValue Phase.MG
                      PieceType.ROOK.idx) :=
  ⟨by decide, xiangqiBoard_codes, by decide, rfl, rfl, rfl, rfl,
    evaluate_extra_white_rook stockfishConsts (by decide) xiangqiBoard xiangqiBoard_codes
      startGlobals rookUpPosition (rookAdded 40) 40 (by decide) rfl rfl rfl rfl⟩

/-- C17. For every position not in check whose psq score is zero, as it is
with the two kings alone on the board, `evaluate` returns exactly
`Eval::Tempo`, whichever side is to move. -/
theorem evaluate_bare_kings (K : Consts) (pos : Position) (h : pos.checkers = false)
    (hpsq : pos.psq_score = SCORE_ZERO) : evaluate K pos = some K.Tempo := by
  have hv : whiteValue K SCORE_ZERO = 0 := by
    rw [whiteValue_eq]
    simp [SCORE_ZERO, make_score, mg_value]
  rw [evaluate_quiet K pos h, hpsq, hv]
  simp

/-- Witness of C17: bare kings with Black to move. -/
theorem evaluate_bare_kings_witness :
    bareKingsPosition.checkers = false ∧ bareKingsPosition.psq_score = SCORE_ZERO
    ∧ evaluate stockfishConsts bareKingsPosition = some stockfishConsts.Tempo :=
  ⟨rfl, rfl, evaluate_bare_kings stockfishConsts bareKingsPosition rfl rfl⟩

/-- C18 as stated fails: after `Eval::init` alone on the zero-initialised
tables the white rook entry of square 0 is still zero, not the rook value 1000
plus its bonus, so the white half of `psq` is not populated. -/
theorem eval_init_does_not_populate_psq :
    (Eval.init startGlobals).psq Color.WHITE PieceType.ROOK.idx 0 = SCORE_ZERO
    ∧ (Eval.init startGlobals).PieceValue Phase.MG PieceType.ROOK.idx = 1000
    ∧ ¬ PsqtPopulated xiangqiBoard (Eval.init startGlobals) := by
  refine ⟨rfl, rfl, ?_⟩
  intro h
  have h1 := h 6 (by decide) 0 (by decide)
  revert h1
  decide

/-! ## `Eval::init` -/

/-- The state of the loop of `Eval::init` after its first `n` turns. -/
theorem eval_init_loop (kd : Nat → Score) (n : Nat) :
    (List.range n).foldl Eval.initStep (0, kd)
      = (if n = 0 then 0 else Eval.tAfter (n - 1),
          fun i => if i < n then Eval.kingDangerEntry i else kd i) := by
  induction n with
  | zero => simp
  | succ n ih =>
    rw [List.range_succ, List.foldl_append, ih]
    simp only [List.foldl_cons, List.foldl_nil, Eval.initStep, Nat.succ_ne_zero, if_false,
      Nat.add_sub_cancel]
    have ht : min Peak (min ((n : Int) * n * 27)
        ((if n = 0 then 0 else Eval.tAfter (n - 1)) + MaxSlope)) = Eval.tAfter n := by
      cases n with
      | zero => rfl
      | succ m => simp [Eval.tAfter]
    rw [ht]
    congr 1
    funext i
    by_cases hi : i = n
    · subst hi
      simp [Function.update_same, Eval.kingDangerEntry]
    · rw [Function.update_noteq hi]
      by_cases h1 : i < n
      · simp [h1, Nat.lt_succ_of_lt h1]
      · have h2 : ¬ i < n + 1 := by omega
        simp [h1, h2]

/-- The table `KingDanger` after `Eval::init`: the entries 0..399 are written,
the others are left alone. -/
theorem eval_init_KingDanger (g : Globals) (i : Nat) :
    (Eval.init g).KingDanger i
      = if i < 400 then Eval.kingDangerEntry i else g.KingDanger i := by
  unfold Eval.init
  simp only [eval_init_loop]

/-- C18 amended. `Eval::init` sets up the table `KingDanger` only (its entries
0..399, with values that do not depend on the previous content): it leaves
`psq` and `PieceValue` exactly as they were; the white half of `psq` is
populated by the separate `PSQT::init`, before or after `Eval::init`. -/
theorem eval_init_leaves_psq (B : Board) (hF : B.FilesInRange) (hC : B.BlackCodesApart)
    (g : Globals) :
    (Eval.init g).psq = g.psq ∧ (Eval.init g).PieceValue = g.PieceValue
    ∧ (∀ i, i < 400 → (Eval.init g).KingDanger i = Eval.kingDangerEntry i)
    ∧ PsqtPopulated B (PSQT.init B (Eval.init g))
    ∧ PsqtPopulated B (Eval.init (PSQT.init B g)) := by
  refine ⟨rfl, rfl, ?_, ?_, ?_⟩
  · intro i hi
    rw [eval_init_KingDanger, if_pos hi]
  · exact fun pt hpt s hs => (psqt_white_half B hF hC (Eval.init g) pt hpt).1 s hs
  · exact fun pt hpt s hs => (psqt_white_half B hF hC g pt hpt).1 s hs

/-- Witness of C18 amended on the usual board and the zero-initialised tables. -/
theorem eval_init_leaves_psq_witness :
    xiangqiBoard.FilesInRange ∧ xiangqiBoard.BlackCodesApart
    ∧ (Eval.init startGlobals).psq = startGlobals.psq
    ∧ (Eval.init startGlobals).PieceValue = startGlobals.PieceValue
    ∧ (∀ i, i < 400 → (Eval.init startGlobals).KingDanger i = Eval.kingDangerEntry i)
    ∧ PsqtPopulated xiangqiBoard (PSQT.init xiangqiBoard (Eval.init startGlobals))
    ∧ PsqtPopulated xiangqiBoard (Eval.init (PSQT.init xiangqiBoard startGlobals)) :=
  ⟨xiangqiBoard_files, xiangqiBoard_codes,
    eval_init_leaves_psq xiangqiBoard xiangqiBoard_files xiangqiBoard_codes startGlobals⟩

/-! ## Bitboards -/

theorem testBit_of_lt_two_pow {w n i : Nat} (h : w < 2 ^ n) (hi : n ≤ i) :
    w.testBit i = false :=
  Nat.testBit_lt_two_pow (lt_of_lt_of_le h (Nat.pow_le_pow_right (by norm_num) hi))

theorem low_and_not (w : Nat) (h : w < 2 ^ 64) : w &&& (w ^^^ WORD_MASK) = 0 := by
  apply Nat.eq_of_testBit_eq
  intro i
  simp only [WORD_MASK, Nat.testBit_and, Nat.testBit_xor, Nat.testBit_two_pow_sub_one,
    Nat.zero_testBit]
  by_cases hi : i < 64
  · cases w.testBit i <;> simp [hi]
  · simp [testBit_of_lt_two_pow h (Nat.le_of_not_lt hi)]

theorem high_and_not (w : Nat) : w &&& ((w ^^^ WORD_MASK) &&& BIT_MASK) = 0 := by
  apply Nat.eq_of_testBit_eq
  intro i
  simp only [WORD_MASK, BIT_MASK, Nat.testBit_and, Nat.testBit_xor,
    Nat.testBit_two_pow_sub_one, Nat.zero_testBit]
  by_cases hi : i < 26
  · have hi2 : i < 64 := by omega
    cases w.testBit i <;> simp [hi, hi2]
  · simp [hi]

theorem low_or_not (w : Nat) (h : w < 2 ^ 64) : w ||| (w ^^^ WORD_MASK) = WORD_MASK := by
  apply Nat.eq_of_testBit_eq
  intro i
  simp only [WORD_MASK, Nat.testBit_or, Nat.testBit_xor, Nat.testBit_two_pow_sub_one]
  by_cases hi : i < 64
  · cases w.testBit i <;> simp [hi]
  · simp [hi, testBit_of_lt_two_pow h (Nat.le_of_not_lt hi)]

theorem high_or_not (w : Nat) (h : w < 2 ^ 26) :
    w ||| ((w ^^^ WORD_MASK) &&& BIT_MASK) = BIT_MASK := by
  apply Nat.eq_of_testBit_eq
  intro i
  simp only [WORD_MASK, BIT_MASK, Nat.testBit_or, Nat.testBit_and, Nat.testBit_xor,
    Nat.testBit_two_pow_sub_one]
  by_cases hi : i < 26
  · have hi2 : i < 64 := by omega
    cases w.testBit i <;> simp [hi, hi2]
  · simp [hi, testBit_of_lt_two_pow h (Nat.le_of_not_lt hi)]

/-- C19. For every bitboard `A` whose bits above square 89 are zero, `A & ~A`
is the empty bitboard (equal to the default-constructed value, and falsy),
`A | ~A` is exactly the universe of the 90 squares, and `~A` has no bit set
outside the mask. -/
theorem bitboard_complement_laws (a : Bitboard) (h : a.Masked) :
    a.and a.not = Bitboard.empty
    ∧ (a.and a.not).toBool = false
    ∧ a.or a.not = Bitboard.universe
    ∧ a.not.Masked := by
  have e1 : a.and a.not = Bitboard.empty := by
    simp only [Bitboard.and, Bitboard.not, Bitboard.empty, low_and_not a.bb0 h.1,
      high_and_not a.bb1]
  refine ⟨e1, ?_, ?_, ?_, ?_⟩
  · rw [e1]
    rfl
  · simp only [Bitboard.or, Bitboard.not, Bitboard.universe, low_or_not a.bb0 h.1,
      high_or_not a.bb1 h.2]
  · exact Nat.xor_lt_two_pow h.1 (by norm_num [WORD_MASK])
  · exact Nat.and_lt_two_pow _ (by norm_num [BIT_MASK])

/-- Witness of C19 at the bitboard with the squares 3, 70 and 89. -/
theorem bitboard_complement_laws_witness :
    sampleBitboard.Masked
    ∧ sampleBitboard.and sampleBitboard.not = Bitboard.empty
    ∧ (sampleBitboard.and sampleBitboard.not).toBool = false
    ∧ sampleBitboard.or sampleBitboard.not = Bitboard.universe
    ∧ sampleBitboard.not.Masked :=
  ⟨by decide, bitboard_complement_laws sampleBitboard (by decide)⟩

/-! ## Enumeration of a bitboard with `pop_lsb` -/

theorem find_range_none (p : Nat → Bool) (n : Nat)
    (h : (List.range n).find? p = none) (j : Nat) (hj : j < n) : p j = false := by
  rw [List.find?_eq_none] at h
  simpa using h j (List.mem_range.2 hj)

theorem find_range_some (p : Nat → Bool) (n i : Nat)
    (h : (List.range n).find? p = some i) :
    i < n ∧ p i = true ∧ ∀ j, j < i → p j = false := by
  induction n with
  | zero => simp at h
  | succ n ih =>
    rw [List.range_succ, List.find?_append] at h
    cases hn : (List.range n).find? p with
    | some k =>
      rw [hn] at h
      have hk : k = i := by simpa using h
      subst hk
      obtain ⟨h1, h2, h3⟩ := ih hn
      exact ⟨Nat.lt_succ_of_lt h1, h2, h3⟩
    | none =>
      rw [hn] at h
      have hp : p n = true := by
        by_contra hc
        simp [List.find?, hc] at h
      have hi : n = i := by simpa [List.find?, hp] using h
      subst hi
      exact ⟨Nat.lt_succ_self n, hp, fun j hj => find_range_none p n hn j hj⟩

/-- The list of the elements below `n` that satisfy `p` starts with the least
of them; the rest are those that differ from it. -/
theorem filter_range_head (p : Nat → Bool) (n i0 : Nat) (hi : i0 < n) (hp : p i0 = true)
    (hmin : ∀ j, j < i0 → p j = false) :
    (List.range n).filter p
      = i0 :: (List.range n).filter (fun j => p j && decide (j ≠ i0)) := by
  induction n with
  | zero => omega
  | succ n ih =>
    rw [List.range_succ, List.filter_append, List.filter_append]
    by_cases h : i0 < n
    · rw [ih h]
      have hne : n ≠ i0 := by omega
      simp [List.filter_cons, hne]
    · have hn : i0 = n := by omega
      subst hn
      have e1 : (List.range i0).filter p = [] := by
        rw [List.filter_eq_nil_iff]
        intro a ha
        simp [hmin a (List.mem_range.1 ha)]
      have e2 : (List.range i0).filter (fun j => p j && decide (j ≠ i0)) = [] := by
        rw [List.filter_eq_nil_iff]
        intro a ha
        simp [hmin a (List.mem_range.1 ha)]
      rw [e1, e2]
      simp [List.filter_cons, hp]

theorem testBit_xor_two_pow (w i j : Nat) (h : w.testBit i = true) :
    (w ^^^ 2 ^ i).testBit j = (w.testBit j && decide (j ≠ i)) := by
  rw [Nat.testBit_xor, Nat.testBit_two_pow]
  by_cases hj : j = i
  · subst hj
    simp [h]
  · have : ¬ i = j := fun e => hj e.symm
    simp [hj, this]

/-- What one call of `pop_lsb` does: on a bitboard without squares nothing, on
the others it clears the lowest square and only that one. -/
theorem pop_lsb_spec (a : Bitboard) :
    (a.squares = [] ∧ a.pop_lsb = a)
    ∨ ∃ i0, i0 < 128 ∧ a.test i0 = true ∧ (∀ j, j < i0 → a.test j = false)
        ∧ ∀ j, a.pop_lsb.test j = (a.test j && decide (j ≠ i0)) := by
  cases h0 : lowestBit a.bb0 with
  | some i =>
    right
    obtain ⟨h1, h2, h3⟩ := find_range_some _ 64 i h0
    refine ⟨i, by omega, by simp [Bitboard.test, h1, h2], ?_, ?_⟩
    · intro j hj
      have hj64 : j < 64 := by omega
      simpa [Bitboard.test, hj64] using h3 j hj
    · intro j
      simp only [Bitboard.pop_lsb, h0, Bitboard.test]
      by_cases hj : j < 64
      · simp only [hj, if_true]
        exact testBit_xor_two_pow a.bb0 i j h2
      · have hne : j ≠ i := by omega
        simp [hj, hne]
  | none =>
    have hlow : ∀ j, j < 64 → a.bb0.testBit j = false := find_range_none _ 64 h0
    cases h1 : lowestBit a.bb1 with
    | some i =>
      right
      obtain ⟨k1, k2, k3⟩ := find_range_some _ 64 i h1
      refine ⟨64 + i, by omega, ?_, ?_, ?_⟩
      · have : ¬ (64 + i < 64) := by omega
        simp [Bitboard.test, this, k2]
      · intro j hj
        by_cases hj64 : j < 64
        · simpa [Bitboard.test, hj64] using hlow j hj64
        · have := k3 (j - 64) (by omega)
          simpa [Bitboard.test, hj64] using this
      · intro j
        simp only [Bitboard.pop_lsb, h0, h1, Bitboard.test]
        by_cases hj : j < 64
        · have hne : j ≠ 64 + i := by omega
          simp [hj, hne]
        · simp only [hj, if_false]
          rw [testBit_xor_two_pow a.bb1 i (j - 64) k2]
          have : (j - 64 ≠ i) ↔ (j ≠ 64 + i) := by omega
          simp [this]
    | none =>
      left
      have hhigh : ∀ j, j < 64 → a.bb1.testBit j = false := find_range_none _ 64 h1
      constructor
      · unfold Bitboard.squares
        rw [List.filter_eq_nil_iff]
        intro j hj
        have hj128 := List.mem_range.1 hj
        by_cases hj64 : j < 64
        · simp [Bitboard.test, hj64, hlow j hj64]
        · simp [Bitboard.test, hj64, hhigh (j - 64) (by omega)]
      · simp [Bitboard.pop_lsb, h0, h1]

/-- One call of `pop_lsb` removes the first of the squares and no other. -/
theorem squares_pop_lsb (a : Bitboard) : a.pop_lsb.squares = a.squares.tail := by
  rcases pop_lsb_spec a with ⟨h1, h2⟩ | ⟨i0, hi, hp, hmin, hpop⟩
  · rw [h2, h1]
    rfl
  · have e : a.pop_lsb.test = fun j => a.test j && decide (j ≠ i0) := funext hpop
    unfold Bitboard.squares
    rw [e, filter_range_head a.test 128 i0 hi hp hmin]
    rfl

theorem squares_popMany (a : Bitboard) (k : Nat) :
    (a.popMany k).squares = a.squares.drop k := by
  induction k generalizing a with
  | zero => rfl
  | succ k ih =>
    unfold Bitboard.popMany
    rw [Function.iterate_succ_apply]
    have := ih a.pop_lsb
    unfold Bitboard.popMany at this
    rw [this, squares_pop_lsb, List.drop_tail]

theorem squares_increasing (a : Bitboard) : a.squares.Pairwise (fun i j => i < j) :=
  (List.pairwise_lt_range 128).sublist (List.filter_sublist _)

theorem pop_lsb_masked (a : Bitboard) (h : a.Masked) : a.pop_lsb.Masked := by
  unfold Bitboard.pop_lsb
  cases h0 : lowestBit a.bb0 with
  | some i =>
    obtain ⟨h1, -, -⟩ := find_range_some _ 64 i h0
    exact ⟨Nat.xor_lt_two_pow h.1 (Nat.pow_lt_pow_right (by norm_num) h1), h.2⟩
  | none =>
    cases h1 : lowestBit a.bb1 with
    | some i =>
      obtain ⟨-, k2, -⟩ := find_range_some _ 64 i h1
      have hi : i < 26 := by
        by_contra hc
        rw [testBit_of_lt_two_pow h.2 (Nat.le_of_not_lt hc)] at k2
        exact Bool.false_ne_true k2
      exact ⟨h.1, Nat.xor_lt_two_pow h.2 (Nat.pow_lt_pow_right (by norm_num) hi)⟩
    | none => exact h

theorem popMany_masked (a : Bitboard) (h : a.Masked) (k : Nat) : (a.popMany k).Masked := by
  induction k generalizing a with
  | zero => exact h
  | succ k ih =>
    unfold Bitboard.popMany
    rw [Function.iterate_succ_apply]
    exact ih a.pop_lsb (pop_lsb_masked a h)

/-- A masked bitboard has no squares exactly when it is the empty bitboard. -/
theorem squares_eq_nil_iff (a : Bitboard) (h : a.Masked) :
    a.squares = [] ↔ a = Bitboard.empty := by
  constructor
  · intro hs
    unfold Bitboard.squares at hs
    rw [List.filter_eq_nil_iff] at hs
    have h0 : a.bb0 = 0 := by
      apply Nat.eq_of_testBit_eq
      intro i
      rw [Nat.zero_testBit]
      by_cases hi : i < 64
      · have := hs i (List.mem_range.2 (by omega))
        simpa [Bitboard.test, hi] using this
      · exact testBit_of_lt_two_pow h.1 (Nat.le_of_not_lt hi)
    have h1 : a.bb1 = 0 := by
      apply Nat.eq_of_testBit_eq
      intro i
      rw [Nat.zero_testBit]
      by_cases hi : i < 26
      · have := hs (64 + i) (List.mem_range.2 (by omega))
        have hn : ¬ (64 + i < 64) := by omega
        simpa [Bitboard.test, hn] using this
      · exact testBit_of_lt_two_pow h.2 (Nat.le_of_not_lt hi)
    cases a
    simp only [Bitboard.empty, Bitboard.mk.injEq]
    exact ⟨h0, h1⟩
  · intro he
    rw [he]
    unfold Bitboard.squares
    rw [List.filter_eq_nil_iff]
    intro j _
    simp [Bitboard.test, Bitboard.empty]

/-- C20. For every bitboard `A` without bits above square 89: the squares of
`A` are listed in strictly increasing order; each call of `pop_lsb` removes
the first of them, the lowest set bit across both words, and no other; after
`k` calls the squares left are those after the first `k`; and the bitboard is
empty after `k` calls exactly when `k` is at least `popcount(A)`, so it
becomes empty after exactly `popcount(A)` calls. -/
theorem pop_lsb_enumerates (a : Bitboard) (h : a.Masked) :
    a.squares.Pairwise (fun i j => i < j)
    ∧ a.pop_lsb.squares = a.squares.tail
    ∧ (∀ k, (a.popMany k).squares = a.squares.drop k)
    ∧ (∀ k, a.popMany k = Bitboard.empty ↔ a.popcount ≤ k)
    ∧ a.popMany a.popcount = Bitboard.empty := by
  have hk : ∀ k, a.popMany k = Bitboard.empty ↔ a.popcount ≤ k := by
    intro k
    rw [← squares_eq_nil_iff _ (popMany_masked a h k), squares_popMany, List.drop_eq_nil_iff]
    rfl
  exact ⟨squares_increasing a, squares_pop_lsb a, squares_popMany a, hk,
    (hk a.popcount).2 (le_refl _)⟩

/-- Witness of C20 at the bitboard with the squares 3, 70 and 89. -/
theorem pop_lsb_enumerates_witness :
    sampleBitboard.Masked
    ∧ sampleBitboard.squares.Pairwise (fun i j => i < j)
    ∧ sampleBitboard.pop_lsb.squares = sampleBitboard.squares.tail
    ∧ (∀ k, (sampleBitboard.popMany k).squares = sampleBitboard.squares.drop k)
    ∧ (∀ k, sampleBitboard.popMany k = Bitboard.empty ↔ sampleBitboard.popcount ≤ k)
    ∧ sampleBitboard.popMany sampleBitboard.popcount = Bitboard.empty :=
  ⟨by decide, pop_lsb_enumerates sampleBitboard (by decide)⟩

/-! ## `eval_init` -/

theorem Bitboard.or_self_eq (a : Bitboard) : a.or a = a := by
  cases a
  simp [Bitboard.or]

/-- The conditional `b ? popcount(b) : Bitboard()` is `popcount(b)`. -/
theorem popcount_guarded (b : Bitboard) :
    (if b.toBool then (b.popcount : Int) else Bitboard.empty.toInt) = (b.popcount : Int) := by
  by_cases h : b.toBool = true
  · rw [if_pos h]
  · rw [if_neg h]
    have h0 : b.bb0 = 0 ∧ b.bb1 = 0 := by
      simpa [Bitboard.toBool] using h
    have hb : b = Bitboard.empty := by
      cases b
      simp only [Bitboard.empty, Bitboard.mk.injEq]
      exact h0
    rw [hb]
    decide

/-- The pawn attacks `eval_init` reads back from `attackedBy[Us][PAWN]`. -/
theorem setAttackedBy_pawn_read (ab : Color → Nat → Bitboard) (Us : Color) (pa : Bitboard)
    (all : Nat) :
    setAttackedBy (setAttackedBy ab Us PieceType.PAWN.idx pa) Us all
        ((setAttackedBy ab Us PieceType.PAWN.idx pa Us all).or pa) Us PieceType.PAWN.idx
      = pa := by
  by_cases h : PieceType.PAWN.idx = all
  · subst h
    simp [setAttackedBy, Bitboard.or_self_eq]
  · simp [setAttackedBy, h]

/-- C21, the code at the failing input.  With the black king on e9 and a white
pawn on e6, White having a rook's worth of material, `eval_init<WHITE>`
computes the king ring 67, 75, 76, 77, 84, 86; the white pawns attack its
square 67, so one square of the ring is attacked, but
`kingAttackersCount[WHITE]` is set to 0: the pawn attacks are intersected with
the squares the king attacks, from before the ring was formed, and not with
`kingRing[BLACK]`, which the comment on `kingAttackersCount` names. -/
theorem eval_init_king_ring_count_fails :
    (eval_init xiangqiEvalConsts Color.WHITE kingOnE9Position pawnOnE6Info).kingRing Color.BLACK
      = ⟨0, 2 ^ 3 + 2 ^ 11 + 2 ^ 12 + 2 ^ 13 + 2 ^ 20 + 2 ^ 22⟩
    ∧ (((eval_init xiangqiEvalConsts Color.WHITE kingOnE9Position pawnOnE6Info).kingRing
          Color.BLACK).and (pawnOnE6Info.pi.pawn_attacks Color.WHITE)).squares = [67]
    ∧ (eval_init xiangqiEvalConsts Color.WHITE kingOnE9Position pawnOnE6Info).kingAttackersCount
        Color.WHITE = 0
    ∧ xiangqiEvalConsts.ROOK_VALUE_MG ≤ kingOnE9Position.non_pawn_material Color.WHITE
    ∧ ¬ SeedsFromKingRing xiangqiEvalConsts Color.WHITE kingOnE9Position pawnOnE6Info := by
  refine ⟨by decide, by decide, by decide, by decide, ?_⟩
  unfold SeedsFromKingRing
  decide

/-- What the code of `eval_init<Us>` computes, with `b` the squares the enemy
king attacks: when `non_pawn_material(Us) >= ROOK_VALUE_MG`, `kingRing[Them]`
is `b | shift_bb(b, Down)` and `kingAttackersCount[Us]` is the number of
squares of `b`, not of the ring, that the pawns of `Us` attack; otherwise
`kingRing[Them]` is the empty bitboard and `kingAttackersCount[Us]` is 0. -/
theorem eval_init_seeds_king_attackers (E : EvalConsts) (Us : Color) (pos : Position)
    (ei : EvalInfo) :
    (eval_init E Us pos ei).kingRing Us.them
      = (if E.ROOK_VALUE_MG ≤ pos.non_pawn_material Us then
          (pos.king_attacks Us.them).or
            (shift_bb (pos.king_attacks Us.them)
              (if Us = Color.WHITE then E.DELTA_S else E.DELTA_N))
        else Bitboard.empty)
    ∧ (eval_init E Us pos ei).kingAttackersCount Us
      = (if E.ROOK_VALUE_MG ≤ pos.non_pawn_material Us then
          (((pos.king_attacks Us.them).and (ei.pi.pawn_attacks Us)).popcount : Int)
        else 0) := by
  by_cases h : E.ROOK_VALUE_MG ≤ pos.non_pawn_material Us
  · simp only [eval_init, h, if_true, Function.update_same, setAttackedBy_pawn_read,
      popcount_guarded]
    exact ⟨trivial, trivial⟩
  · simp only [eval_init, h, if_false, Function.update_same]
    exact ⟨trivial, trivial⟩

/-! ## What `Eval::evaluate` depends on -/

/-- C22. For valid constants and any two positions, neither in check, with
the same middlegame component of the psq score and the same side to move,
`evaluate` returns the same value, whatever else differs (endgame component,
game phase, thread and material entry, non-pawn material, pins, attack
bitboards); the value is `mg_value(psq_score()) + Tempo` for White to move
and `-mg_value(psq_score()) + Tempo` for Black to move. -/
theorem evaluate_depends_on_mg_and_side (K : Consts) (hK : K.Valid) (p q : Position)
    (hp : p.checkers = false) (hq : q.checkers = false)
    (hmg : mg_value p.psq_score = mg_value q.psq_score)
    (hstm : p.side_to_move = q.side_to_move) :
    evaluate K p = evaluate K q
    ∧ evaluate K p
        = some (if p.side_to_move = Color.WHITE then mg_value p.psq_score + K.Tempo
                else -mg_value p.psq_score + K.Tempo) := by
  have hpm : K.PHASE_MIDGAME ≠ 0 := ne_of_gt hK.1
  rw [evaluate_quiet K p hp, evaluate_quiet K q hq, whiteValue_eq_mg K hpm,
    whiteValue_eq_mg K hpm, hmg, hstm]
  refine ⟨rfl, ?_⟩
  by_cases hw : q.side_to_move = Color.WHITE
  · rw [if_pos hw, if_pos hw]
  · rw [if_neg hw, if_neg hw]

/-- Witness of C22: two positions that agree on the middlegame component 100
and the side to move and differ in everything else. -/
theorem evaluate_depends_on_mg_and_side_witness :
    stockfishConsts.Valid
    ∧ kingOnE9Position.checkers = false ∧ kingOnE9Variant.checkers = false
    ∧ mg_value kingOnE9Position.psq_score = mg_value kingOnE9Variant.psq_score
    ∧ kingOnE9Position.side_to_move = kingOnE9Variant.side_to_move
    ∧ evaluate stockfishConsts kingOnE9Position = evaluate stockfishConsts kingOnE9Variant
    ∧ evaluate stockfishConsts kingOnE9Position
        = some (if kingOnE9Position.side_to_move = Color.WHITE
                then mg_value kingOnE9Position.psq_score + stockfishConsts.Tempo
                else -mg_value kingOnE9Position.psq_score + stockfishConsts.Tempo) :=
  ⟨by decide, rfl, rfl, rfl, rfl,
    evaluate_depends_on_mg_and_side stockfishConsts (by decide) kingOnE9Position
      kingOnE9Variant rfl rfl rfl rfl⟩

/-! ## The king-danger table -/

theorem tAfter_le_peak (i : Nat) : Eval.tAfter i ≤ Peak := by
  cases i with
  | zero => exact min_le_left _ _
  | succ i => exact min_le_left _ _

theorem tAfter_le_square (i : Nat) : Eval.tAfter i ≤ (i : Int) * i * 27 := by
  cases i with
  | zero => exact le_trans (min_le_right _ _) (min_le_left _ _)
  | succ i => exact le_trans (min_le_right _ _) (min_le_left _ _)

theorem tAfter_nonneg (i : Nat) : 0 ≤ Eval.tAfter i := by
  induction i with
  | zero => decide
  | succ i ih =>
    unfold Eval.tAfter
    refine le_min (by decide) (le_min ?_ ?_)
    · positivity
    · have : (0 : Int) ≤ MaxSlope := by decide
      linarith

theorem tAfter_le_succ (i : Nat) : Eval.tAfter i ≤ Eval.tAfter (i + 1) := by
  have h1 := tAfter_le_peak i
  have h2 := tAfter_le_square i
  rw [Eval.tAfter]
  refine le_min h1 (le_min ?_ ?_)
  · have : (i : Int) * i * 27 ≤ ((i + 1 : Nat) : Int) * ((i + 1 : Nat) : Int) * 27 := by
      push_cast
      nlinarith [Int.ofNat_nonneg i]
    linarith
  · have : (0 : Int) ≤ MaxSlope := by decide
    linarith

theorem tAfter_mono {i j : Nat} (h : i ≤ j) : Eval.tAfter i ≤ Eval.tAfter j :=
  monotone_nat_of_le_succ tAfter_le_succ h

theorem tdiv_eq_div_of_nonneg (a b : Int) (ha : 0 ≤ a) (hb : 0 ≤ b) : a.tdiv b = a / b :=
  Int.tdiv_eq_ediv ha hb

/-- The middlegame component of the entry written in turn `i`. -/
theorem mg_kingDangerEntry (i : Nat) :
    mg_value (Eval.kingDangerEntry i) = Eval.tAfter i / 1000 * 330 / 256 := by
  have h0 := tAfter_nonneg i
  have h1 : 0 ≤ Eval.tAfter i / 1000 := Int.ediv_nonneg h0 (by norm_num)
  simp only [Eval.kingDangerEntry, Score.mulWeight, mg_value, make_score, Weights, KingSafety,
    List.getD_cons_succ, List.getD_cons_zero]
  rw [tdiv_eq_div_of_nonneg _ _ h0 (by norm_num),
    tdiv_eq_div_of_nonneg _ _ (by positivity) (by norm_num)]

theorem eg_kingDangerEntry (i : Nat) : eg_value (Eval.kingDangerEntry i) = 0 := by
  simp [Eval.kingDangerEntry, Score.mulWeight, eg_value, make_score, Weights, KingSafety]

/-- C23. After `Eval::init` the table `KingDanger` is a non-decreasing capped
ramp: for `i <= j < 400` the middlegame components satisfy
`mg(KingDanger[i]) <= mg(KingDanger[j]) <= 1650`; `KingDanger[0]` is zero; the
endgame component of each of the entries 0..399 is 0; the entries from 400 on
are left as they were. -/
theorem king_danger_ramp (g : Globals) :
    (∀ i j, i ≤ j → j < 400 →
      mg_value ((Eval.init g).KingDanger i) ≤ mg_value ((Eval.init g).KingDanger j)
      ∧ mg_value ((Eval.init g).KingDanger j) ≤ 1650)
    ∧ (Eval.init g).KingDanger 0 = SCORE_ZERO
    ∧ (∀ i, i < 400 → eg_value ((Eval.init g).KingDanger i) = 0)
    ∧ (∀ i, 400 ≤ i → (Eval.init g).KingDanger i = g.KingDanger i) := by
  refine ⟨?_, ?_, ?_, ?_⟩
  · intro i j hij hj
    have hi : i < 400 := lt_of_le_of_lt hij hj
    rw [eval_init_KingDanger, eval_init_KingDanger, if_pos hi, if_pos hj, mg_kingDangerEntry,
      mg_kingDangerEntry]
    have h1 := tAfter_mono hij
    have h2 := tAfter_le_peak j
    have h3 := tAfter_nonneg i
    unfold Peak at h2
    constructor <;> omega
  · rw [eval_init_KingDanger, if_pos (by norm_num)]
    decide
  · intro i hi
    rw [eval_init_KingDanger, if_pos hi, eg_kingDangerEntry]
  · intro i hi
    rw [eval_init_KingDanger, if_neg (by omega)]

/-! ## Bounds of the template indices -/

theorem zeroTemplate_checked (r e : Nat) (hr : r < 10) (he : e < 5) :
    (zeroTemplate[r]?).bind (fun row => row[e]?) = some (make_score 0 0) := by
  unfold zeroTemplate
  rw [List.getElem?_replicate_of_lt hr, Option.some_bind, List.getElem?_replicate_of_lt he]

/-- C25. For every square on the files 0..8 and the ranks 0..9 and every piece
type in `PAWN..KING`, `edgeDistance` lies in 0..4, below
`(FILE_NB + 1) / 2`, the rank lies below `RANK_NB` and the piece type below
8, so the access `Bonus[pt][rank_of(s)][edgeDistance]` of `PSQT::init` falls
inside the template: it reads an entry that the initialisers write out. -/
theorem psqt_template_index_in_bounds (B : Board) (s pt : Nat)
    (hf : B.file_of s ≤ FILE_I) (hr : B.rank_of s < RANK_NB) (hpt : pt ∈ pieceTypes) :
    0 ≤ edgeDistance B s ∧ edgeDistance B s ≤ 4
    ∧ (edgeDistance B s).toNat < (FILE_NB + 1) / 2
    ∧ B.rank_of s < RANK_NB
    ∧ pt < Bonus.length ∧ Bonus.length = 8
    ∧ bonusAtChecked pt (B.rank_of s) (edgeDistance B s).toNat
        = some (bonusAt pt (B.rank_of s) (edgeDistance B s).toNat) := by
  have he : 0 ≤ edgeDistance B s ∧ edgeDistance B s ≤ 4 := by
    unfold edgeDistance
    unfold FILE_I at *
    unfold FILE_E
    split <;> omega
  have he2 : (edgeDistance B s).toNat < 5 := by omega
  rw [mem_pieceTypes] at hpt
  obtain ⟨hp1, hp7⟩ := hpt
  have hr10 : B.rank_of s < 10 := hr
  refine ⟨he.1, he.2, he2, hr, ?_, rfl, ?_⟩
  · show pt < 8
    omega
  · rw [bonusAt_zero]
    unfold bonusAtChecked
    interval_cases pt <;> exact zeroTemplate_checked _ _ hr10 he2

/-- Witness of C25: the rook on square 7 of the usual board. -/
theorem psqt_template_index_in_bounds_witness :
    xiangqiBoard.file_of 7 ≤ FILE_I ∧ xiangqiBoard.rank_of 7 < RANK_NB ∧ 6 ∈ pieceTypes
    ∧ 0 ≤ edgeDistance xiangqiBoard 7 ∧ edgeDistance xiangqiBoard 7 ≤ 4
    ∧ (edgeDistance xiangqiBoard 7).toNat < (FILE_NB + 1) / 2
    ∧ xiangqiBoard.rank_of 7 < RANK_NB
    ∧ 6 < Bonus.length ∧ Bonus.length = 8
    ∧ bonusAtChecked 6 (xiangqiBoard.rank_of 7) (edgeDistance xiangqiBoard 7).toNat
        = some (bonusAt 6 (xiangqiBoard.rank_of 7) (edgeDistance xiangqiBoard 7).toNat) :=
  ⟨by decide, by decide, by decide,
    psqt_template_index_in_bounds xiangqiBoard 7 6 (by decide) (by decide) (by decide)⟩

/-! ## `imbalance` within the range of `int` -/

theorem int32_of_bounds (x : Int) (h1 : -2147483648 ≤ x) (h2 : x ≤ 2147483647) :
    int32 x = some x := by
  unfold int32
  rw [if_pos ⟨h1, h2⟩]

/-- A property of the elements and of the default holds for every read. -/
theorem getD_prop {α : Type} (P : α → Prop) (l : List α) (d : α) (hl : ∀ x, x ∈ l → P x)
    (hd : P d) (j : Nat) : P (l.getD j d) := by
  induction l generalizing j with
  | nil => simpa using hd
  | cons a l ih =>
    cases j with
    | zero => simpa using hl a (List.mem_cons_self a l)
    | succ j => simpa using ih (fun x hx => hl x (List.mem_cons_of_mem a hx)) j

theorem QuadraticOurs_bound (i j : Nat) :
    -1667 ≤ tableAt QuadraticOurs i j ∧ tableAt QuadraticOurs i j ≤ 1667 := by
  unfold tableAt
  apply getD_prop (fun x : Int => -1667 ≤ x ∧ x ≤ 1667) _ 0 _ (by decide) j
  exact getD_prop (fun row : List Int => ∀ x, x ∈ row → -1667 ≤ x ∧ x ≤ 1667)
    QuadraticOurs [] (by decide) (by decide) i

theorem QuadraticTheirs_bound (i j : Nat) :
    -1667 ≤ tableAt QuadraticTheirs i j ∧ tableAt QuadraticTheirs i j ≤ 1667 := by
  unfold tableAt
  apply getD_prop (fun x : Int => -1667 ≤ x ∧ x ≤ 1667) _ 0 _ (by decide) j
  exact getD_prop (fun row : List Int => ∀ x, x ∈ row → -1667 ≤ x ∧ x ≤ 1667)
    QuadraticTheirs [] (by decide) (by decide) i

theorem Linear_bound (i : Nat) : -1667 ≤ Linear.getD i 0 ∧ Linear.getD i 0 ≤ 1667 :=
  getD_prop (fun x : Int => -1667 ≤ x ∧ x ≤ 1667) Linear 0 (by decide) (by decide) i

/-- Every entry of a row of `PieceCount`, read at any index, lies in 0..5 for
legal counts. -/
theorem pieceCount_entry_bound (pos : Position) (c : Color) (h : LegalCounts pos c)
    (k : Nat) : 0 ≤ (PieceCount pos c).getD k 0 ∧ (PieceCount pos c).getD k 0 ≤ 5 := by
  obtain ⟨u0, u1, u2, u3, u4, u5, u6, hu, h0, h1, h2, h3, h4, h5, h6⟩ :=
    pieceCountRow_legal pos c h
  unfold PieceCount
  rw [hu]
  apply getD_prop (fun x : Int => 0 ≤ x ∧ x ≤ 5) _ 0 _ (by decide) k
  intro x hx
  simp only [List.mem_cons, List.mem_singleton, List.not_mem_nil, or_false] at hx
  rcases hx with rfl | rfl | rfl | rfl | rfl | rfl | rfl <;> constructor <;> omega

/-- A checked loop whose body changes the accumulator by at most `D` on the
elements of the list, and does not overflow while the accumulator is within
`M`, computes what the unchecked loop computes. -/
theorem foldlChecked_eq_foldl {α : Type} (fc : Int → α → Option Int) (f : Int → α → Int)
    (P : α → Prop) (D M : Int) (hD : 0 ≤ D)
    (hstep : ∀ v a, P a → -M ≤ v → v ≤ M →
      fc v a = some (f v a) ∧ -D ≤ f v a - v ∧ f v a - v ≤ D)
    (L : List α) (hL : ∀ a, a ∈ L → P a) (v V : Int) (hv1 : -V ≤ v) (hv2 : v ≤ V)
    (hM : V + L.length * D ≤ M) :
    foldlChecked fc v L = some (L.foldl f v)
    ∧ -(V + L.length * D) ≤ L.foldl f v ∧ L.foldl f v ≤ V + L.length * D := by
  induction L generalizing v V with
  | nil =>
    simp only [foldlChecked, List.foldl_nil, List.length_nil, Nat.cast_zero, zero_mul,
      add_zero]
    exact ⟨trivial, hv1, hv2⟩
  | cons a L ih =>
    have hlen : ((a :: L).length : Int) = L.length + 1 := by simp
    rw [hlen] at hM ⊢
    have hLD : 0 ≤ (L.length : Int) * D := mul_nonneg (Int.ofNat_nonneg _) hD
    obtain ⟨e, d1, d2⟩ := hstep v a (hL a (List.mem_cons_self a L)) (by nlinarith)
      (by nlinarith)
    obtain ⟨r1, r2, r3⟩ := ih (fun x hx => hL x (List.mem_cons_of_mem a hx)) (f v a) (V + D)
      (by linarith) (by linarith) (by nlinarith)
    simp only [foldlChecked, e, Option.some_bind, List.foldl_cons]
    refine ⟨r1, ?_, ?_⟩
    · nlinarith
    · nlinarith

/-- A product of a table entry and a count. -/
theorem entry_mul_count_bound (t c : Int) (ht : -1667 ≤ t ∧ t ≤ 1667) (hc : 0 ≤ c ∧ c ≤ 5) :
    -8335 ≤ t * c ∧ t * c ≤ 8335 := by
  have := mul_bound c t 5 1667 hc.1 hc.2 ht.1 ht.2
  rw [mul_comm]
  constructor <;> linarith [this.1, this.2]

/-- The inner loop of `imbalance` does not overflow for counts in 0..5 and
leaves `v` within -118357..118357. -/
theorem imbalanceInnerChecked_eq (Us : Color) (pc : Color → List Int)
    (hc : ∀ c k, 0 ≤ (pc c).getD k 0 ∧ (pc c).getD k 0 ≤ 5) (pt1 : Nat) (hpt : pt1 < 7) :
    imbalanceInnerChecked Us pc pt1 = some (imbalanceInner Us pc pt1)
    ∧ -118357 ≤ imbalanceInner Us pc pt1 ∧ imbalanceInner Us pc pt1 ≤ 118357 := by
  have hstep : ∀ (v : Int) (pt2 : Nat), True → -200000 ≤ v → v ≤ 200000 →
      imbalanceInnerStepChecked Us pc pt1 v pt2
          = some (v + (tableAt QuadraticOurs pt1 pt2 * (pc Us).getD pt2 0
                        + tableAt QuadraticTheirs pt1 pt2 * (pc Us.them).getD pt2 0))
        ∧ -16670 ≤ (v + (tableAt QuadraticOurs pt1 pt2 * (pc Us).getD pt2 0
                        + tableAt QuadraticTheirs pt1 pt2 * (pc Us.them).getD pt2 0)) - v
        ∧ (v + (tableAt QuadraticOurs pt1 pt2 * (pc Us).getD pt2 0
                        + tableAt QuadraticTheirs pt1 pt2 * (pc Us.them).getD pt2 0)) - v
            ≤ 16670 := by
    intro v pt2 _ hv1 hv2
    obtain ⟨a1, a2⟩ := entry_mul_count_bound _ _ (QuadraticOurs_bound pt1 pt2) (hc Us pt2)
    obtain ⟨b1, b2⟩ :=
      entry_mul_count_bound _ _ (QuadraticTheirs_bound pt1 pt2) (hc Us.them pt2)
    unfold imbalanceInnerStepChecked
    rw [int32_of_bounds _ (by linarith) (by linarith), Option.some_bind,
      int32_of_bounds _ (by linarith) (by linarith), Option.some_bind,
      int32_of_bounds _ (by linarith) (by linarith), Option.some_bind,
      int32_of_bounds _ (by linarith) (by linarith)]
    refine ⟨rfl, ?_, ?_⟩ <;> linarith
  obtain ⟨l1, l2⟩ := Linear_bound pt1
  have hlen : ((List.range (pt1 + 1)).length : Int) ≤ 7 := by
    rw [List.length_range]
    exact_mod_cast hpt
  have hlen0 : (0 : Int) ≤ ((List.range (pt1 + 1)).length : Int) := Int.ofNat_nonneg _
  obtain ⟨r1, r2, r3⟩ := foldlChecked_eq_foldl (imbalanceInnerStepChecked Us pc pt1)
    (fun v pt2 => v + (tableAt QuadraticOurs pt1 pt2 * (pc Us).getD pt2 0
                        + tableAt QuadraticTheirs pt1 pt2 * (pc Us.them).getD pt2 0))
    (fun _ => True) 16670 200000 (by norm_num) hstep (List.range (pt1 + 1))
    (fun _ _ => trivial) (Linear.getD pt1 0) 1667 l1 l2 (by linarith)
  exact ⟨r1, by unfold imbalanceInner; linarith, by unfold imbalanceInner; linarith⟩

/-- `imbalance<Us>` does not overflow for counts in 0..5. -/
theorem imbalanceChecked_eq (Us : Color) (pc : Color → List Int)
    (hc : ∀ c k, 0 ≤ (pc c).getD k 0 ∧ (pc c).getD k 0 ≤ 5) :
    imbalanceChecked Us pc = some (imbalance Us pc) := by
  have hstep : ∀ (bonus : Int) (pt1 : Nat), pt1 < 7 → -5000000 ≤ bonus → bonus ≤ 5000000 →
      imbalanceStepChecked Us pc bonus pt1
          = some (if (pc Us).getD pt1 0 = 0 then bonus
                  else bonus + (pc Us).getD pt1 0 * imbalanceInner Us pc pt1)
        ∧ -591785 ≤ (if (pc Us).getD pt1 0 = 0 then bonus
                  else bonus + (pc Us).getD pt1 0 * imbalanceInner Us pc pt1) - bonus
        ∧ (if (pc Us).getD pt1 0 = 0 then bonus
                  else bonus + (pc Us).getD pt1 0 * imbalanceInner Us pc pt1) - bonus
            ≤ 591785 := by
    intro bonus pt1 hpt hb1 hb2
    unfold imbalanceStepChecked
    by_cases h0 : (pc Us).getD pt1 0 = 0
    · rw [if_pos h0, if_pos h0]
      exact ⟨rfl, by linarith, by linarith⟩
    · rw [if_neg h0, if_neg h0]
      obtain ⟨e, i1, i2⟩ := imbalanceInnerChecked_eq Us pc hc pt1 hpt
      obtain ⟨c1, c2⟩ := hc Us pt1
      obtain ⟨m1, m2⟩ := mul_bound _ (imbalanceInner Us pc pt1) 5 118357 c1 c2 i1 i2
      rw [e, Option.some_bind, int32_of_bounds _ (by linarith) (by linarith), Option.some_bind,
        int32_of_bounds _ (by linarith) (by linarith)]
      refine ⟨rfl, ?_, ?_⟩ <;> linarith
  obtain ⟨r1, -, -⟩ := foldlChecked_eq_foldl (imbalanceStepChecked Us pc)
    (fun bonus pt1 => if (pc Us).getD pt1 0 = 0 then bonus
                      else bonus + (pc Us).getD pt1 0 * imbalanceInner Us pc pt1)
    (fun pt1 => pt1 < 7) 591785 5000000 (by norm_num) hstep
    (List.range (PieceType.ROOK.idx + 1)) (fun a ha => List.mem_range.1 ha) 0 0
    (by norm_num) (by norm_num) (by simp [PieceType.idx])
  exact r1

/-- C24. For piece counts within the Xiangqi ranges no operation of
`imbalance<WHITE>`, of `imbalance<BLACK>`, of their difference and of the
division by 16 leaves the range of a 32-bit `int`; the quotient lies in
-32768..32767, so the narrowing to `int16_t` in `Material::probe` stores the
mathematical quotient. -/
theorem imbalance_narrowing_lossless (pos : Position) (h : LegalMaterial pos) :
    imbalanceChecked Color.WHITE (PieceCount pos) = some (imbalance Color.WHITE (PieceCount pos))
    ∧ imbalanceChecked Color.BLACK (PieceCount pos)
        = some (imbalance Color.BLACK (PieceCount pos))
    ∧ imbalanceQuotChecked (PieceCount pos) = some (imbalanceQuot (PieceCount pos))
    ∧ -32768 ≤ imbalanceQuot (PieceCount pos) ∧ imbalanceQuot (PieceCount pos) ≤ 32767
    ∧ toInt16 (imbalanceQuot (PieceCount pos)) = imbalanceQuot (PieceCount pos) := by
  have hc : ∀ c k, 0 ≤ (PieceCount pos c).getD k 0 ∧ (PieceCount pos c).getD k 0 ≤ 5 :=
    fun c k => pieceCount_entry_bound pos c (h.both c) k
  have hw := imbalanceChecked_eq Color.WHITE (PieceCount pos) hc
  have hb := imbalanceChecked_eq Color.BLACK (PieceCount pos) hc
  obtain ⟨w1, w2⟩ := imbalance_bound pos h Color.WHITE
  obtain ⟨b1, b2⟩ := imbalance_bound pos h Color.BLACK
  obtain ⟨q1, q2⟩ := imbalanceQuot_bound pos h
  refine ⟨hw, hb, ?_, by linarith, by linarith, toInt16_imbalanceQuot pos h⟩
  unfold imbalanceQuotChecked
  rw [hw, hb, Option.some_bind, Option.some_bind,
    int32_of_bounds _ (by linarith) (by linarith), Option.some_bind]
  exact int32_of_bounds _ (by unfold imbalanceQuot at q1; linarith)
    (by unfold imbalanceQuot at q2; linarith)

/-- Witness of C24 at `rookUpPosition`. -/
theorem imbalance_narrowing_lossless_witness :
    LegalMaterial rookUpPosition
    ∧ imbalanceChecked Color.WHITE (PieceCount rookUpPosition)
        = some (imbalance Color.WHITE (PieceCount rookUpPosition))
    ∧ imbalanceChecked Color.BLACK (PieceCount rookUpPosition)
        = some (imbalance Color.BLACK (PieceCount rookUpPosition))
    ∧ imbalanceQuotChecked (PieceCount rookUpPosition)
        = some (imbalanceQuot (PieceCount rookUpPosition))
    ∧ -32768 ≤ imbalanceQuot (PieceCount rookUpPosition)
    ∧ imbalanceQuot (PieceCount rookUpPosition) ≤ 32767
    ∧ toInt16 (imbalanceQuot (PieceCount rookUpPosition))
        = imbalanceQuot (PieceCount rookUpPosition) :=
  ⟨by decide, imbalance_narrowing_lossless rookUpPosition (by decide)⟩

end Chameleon
